import Mathlib

/-!
Verification of the room-relay / peer-connection-signaling core of the
HEAD-diploma-project repository.

Server side (`server/index.js`, the WebSocket relay): rooms are JS `Map`s
(insertion-ordered, keys unique), embedded here as association lists with
JS-`Map` operational semantics (`set` replaces in place or appends, `delete`
removes, iteration in list order).  Each connection's handler closure keeps
two mutable variables (`participantId`, `currentRoom`) plus the socket's
liveness (`readyState === 1`), embedded as a per-connection record.

Client side (`Room1VideoOnly.jsx`, the peer-connection orchestrator): the
mutable refs (`peersRef`, `pendingUsersRef`, `pendingOffersRef`,
`reconnectTimeoutsRef`) become fields of an explicit state; asynchronous
browser callbacks become events of a step function.  SDP blobs are opaque
strings; WebRTC engine failures (exceptions from `createOffer` /
`setRemoteDescription` etc.) are environmental and not modelled: the step
functions follow the non-throwing path of each handler.
-/

namespace S2P

/-! ### Association lists with JS `Map` semantics -/

section AssocList

variable {κ : Type} {α : Type} [DecidableEq κ]

/-- `Map.get(k)`: value at the first occurrence of key `k`. -/
def alGet : List (κ × α) → κ → Option α
  | [], _ => none
  | (k', v) :: rest, k => if k' = k then some v else alGet rest k

/-- `Map.has(k)`. -/
def alHas (m : List (κ × α)) (k : κ) : Bool :=
  (alGet m k).isSome

/-- `Map.set(k, v)`: replace in place (keeping position) or append. -/
def alSet : List (κ × α) → κ → α → List (κ × α)
  | [], k, v => [(k, v)]
  | (k', v') :: rest, k, v =>
      if k' = k then (k, v) :: rest else (k', v') :: alSet rest k v

/-- `Map.delete(k)`. -/
def alRemove : List (κ × α) → κ → List (κ × α)
  | [], _ => []
  | (k', v) :: rest, k =>
      if k' = k then alRemove rest k else (k', v) :: alRemove rest k

/-- Mutate the value stored at key `k` (models in-place mutation of the
object held in a JS dictionary, e.g. `rooms[r].delete(p)`). -/
def alUpdate : List (κ × α) → κ → (α → α) → List (κ × α)
  | [], _, _ => []
  | (k', v) :: rest, k, f =>
      if k' = k then (k', f v) :: alUpdate rest k f
      else (k', v) :: alUpdate rest k f

theorem alGet_alSet_self (m : List (κ × α)) (k : κ) (v : α) :
    alGet (alSet m k v) k = some v := by
  induction m with
  | nil => simp [alSet, alGet]
  | cons hd tl ih =>
    obtain ⟨k', v'⟩ := hd
    by_cases h : k' = k
    · simp [alSet, alGet, h]
    · simp [alSet, alGet, h, ih]

theorem alGet_alSet_ne (m : List (κ × α)) (k k' : κ) (v : α) (h : k' ≠ k) :
    alGet (alSet m k v) k' = alGet m k' := by
  induction m with
  | nil => simp [alSet, alGet, Ne.symm h]
  | cons hd tl ih =>
    obtain ⟨k0, v0⟩ := hd
    by_cases h0 : k0 = k
    · subst h0
      simp [alSet, alGet, Ne.symm h]
    · simp only [alSet, if_neg h0]
      by_cases h1 : k0 = k'
      · simp [alGet, h1]
      · simp [alGet, h1, ih]

theorem alGet_alRemove_self (m : List (κ × α)) (k : κ) :
    alGet (alRemove m k) k = none := by
  induction m with
  | nil => simp [alRemove, alGet]
  | cons hd tl ih =>
    obtain ⟨k', v⟩ := hd
    by_cases h : k' = k
    · simp [alRemove, h, ih]
    · simp [alRemove, alGet, h, ih]

theorem alGet_alRemove_ne (m : List (κ × α)) (k k' : κ) (h : k' ≠ k) :
    alGet (alRemove m k) k' = alGet m k' := by
  induction m with
  | nil => simp [alRemove]
  | cons hd tl ih =>
    obtain ⟨k0, v0⟩ := hd
    by_cases h0 : k0 = k
    · subst h0
      simp [alRemove, alGet, Ne.symm h, ih]
    · by_cases h1 : k0 = k'
      · simp [alRemove, alGet, h0, h1, h]
      · simp [alRemove, alGet, h0, h1, ih]

theorem alGet_alUpdate_self (m : List (κ × α)) (k : κ) (f : α → α) :
    alGet (alUpdate m k f) k = (alGet m k).map f := by
  induction m with
  | nil => simp [alUpdate, alGet]
  | cons hd tl ih =>
    obtain ⟨k', v⟩ := hd
    by_cases h : k' = k
    · simp [alUpdate, alGet, h]
    · simp [alUpdate, alGet, h, ih]

theorem alGet_alUpdate_ne (m : List (κ × α)) (k k' : κ) (f : α → α) (h : k' ≠ k) :
    alGet (alUpdate m k f) k' = alGet m k' := by
  induction m with
  | nil => simp [alUpdate]
  | cons hd tl ih =>
    obtain ⟨k0, v0⟩ := hd
    by_cases h0 : k0 = k
    · subst h0
      simp [alUpdate, alGet, Ne.symm h, ih]
    · by_cases h1 : k0 = k'
      · simp [alUpdate, alGet, h0, h1, h]
      · simp [alUpdate, alGet, h0, h1, ih]

theorem mem_alSet {m : List (κ × α)} {k k' : κ} {v v' : α}
    (h : (k', v') ∈ alSet m k v) : (k' = k ∧ v' = v) ∨ (k', v') ∈ m := by
  induction m with
  | nil =>
    simp only [alSet, List.mem_singleton, Prod.mk.injEq] at h
    exact Or.inl h
  | cons hd tl ih =>
    obtain ⟨k0, v0⟩ := hd
    by_cases h0 : k0 = k
    · simp only [alSet, if_pos h0, List.mem_cons, Prod.mk.injEq] at h
      rcases h with h | h
      · exact Or.inl h
      · exact Or.inr (List.mem_cons_of_mem _ h)
    · simp only [alSet, if_neg h0, List.mem_cons] at h
      rcases h with h | h
      · exact Or.inr (List.mem_cons.mpr (Or.inl h))
      · rcases ih h with h | h
        · exact Or.inl h
        · exact Or.inr (List.mem_cons_of_mem _ h)

theorem mem_alRemove {m : List (κ × α)} {k k' : κ} {v' : α}
    (h : (k', v') ∈ alRemove m k) : (k', v') ∈ m ∧ k' ≠ k := by
  induction m with
  | nil => simp [alRemove] at h
  | cons hd tl ih =>
    obtain ⟨k0, v0⟩ := hd
    by_cases h0 : k0 = k
    · simp only [alRemove, if_pos h0] at h
      exact ⟨List.mem_cons_of_mem _ (ih h).1, (ih h).2⟩
    · simp only [alRemove, if_neg h0, List.mem_cons, Prod.mk.injEq] at h
      rcases h with ⟨hk, hv⟩ | h
      · subst hk; subst hv
        exact ⟨List.mem_cons_self _ _, h0⟩
      · exact ⟨List.mem_cons_of_mem _ (ih h).1, (ih h).2⟩

theorem mem_alUpdate {m : List (κ × α)} {k k' : κ} {f : α → α} {v' : α}
    (h : (k', v') ∈ alUpdate m k f) :
    ((k', v') ∈ m ∧ k' ≠ k) ∨ (k' = k ∧ ∃ v, (k', v) ∈ m ∧ v' = f v) := by
  induction m with
  | nil => simp [alUpdate] at h
  | cons hd tl ih =>
    obtain ⟨k0, v0⟩ := hd
    by_cases h0 : k0 = k
    · simp only [alUpdate, if_pos h0, List.mem_cons, Prod.mk.injEq] at h
      rcases h with ⟨hk, hv⟩ | h
      · subst hk
        exact Or.inr ⟨h0, v0, List.mem_cons_self _ _, hv⟩
      · rcases ih h with h | h
        · exact Or.inl ⟨List.mem_cons_of_mem _ h.1, h.2⟩
        · exact Or.inr ⟨h.1, h.2.choose, List.mem_cons_of_mem _ h.2.choose_spec.1,
            h.2.choose_spec.2⟩
    · simp only [alUpdate, if_neg h0, List.mem_cons, Prod.mk.injEq] at h
      rcases h with ⟨hk, hv⟩ | h
      · subst hk; subst hv
        exact Or.inl ⟨List.mem_cons_self _ _, h0⟩
      · rcases ih h with h | h
        · exact Or.inl ⟨List.mem_cons_of_mem _ h.1, h.2⟩
        · exact Or.inr ⟨h.1, h.2.choose, List.mem_cons_of_mem _ h.2.choose_spec.1,
            h.2.choose_spec.2⟩

theorem alGet_none_not_mem {m : List (κ × α)} {k : κ} (h : alGet m k = none)
    (v : α) : (k, v) ∉ m := by
  induction m with
  | nil => simp
  | cons hd tl ih =>
    obtain ⟨k0, v0⟩ := hd
    by_cases h0 : k0 = k
    · simp [alGet, h0] at h
    · simp only [alGet, if_neg h0] at h
      intro hmem
      rcases List.mem_cons.mp hmem with hh | hh
      · exact h0 (congrArg Prod.fst hh).symm
      · exact ih h hh

theorem alGet_append_of_some {m l : List (κ × α)} {k : κ} {v : α}
    (h : alGet m k = some v) : alGet (m ++ l) k = some v := by
  induction m with
  | nil => simp [alGet] at h
  | cons hd tl ih =>
    obtain ⟨k0, v0⟩ := hd
    by_cases h0 : k0 = k
    · simp_all [alGet]
    · simp only [alGet, if_neg h0] at h ⊢
      exact ih h

theorem alSet_keys_of_has {m : List (κ × α)} {k : κ} (v : α)
    (h : alHas m k = true) : (alSet m k v).map Prod.fst = m.map Prod.fst := by
  induction m with
  | nil => simp [alHas, alGet] at h
  | cons hd tl ih =>
    obtain ⟨k0, v0⟩ := hd
    by_cases h0 : k0 = k
    · simp [alSet, h0]
    · simp only [alHas, alGet, if_neg h0] at h
      simp [alSet, h0, ih h]

end AssocList

/-! ### Server embedding (`server/index.js`) -/

/-- JS truthiness of an optional string (`undefined`/`null`/`""` are falsy). -/
def optStrTruthy : Option String → Bool
  | some s => s ≠ ""
  | none => false

/-- `x || d` for an optional string field of a JSON payload. -/
def jsOrStr : Option String → String → String
  | some s, d => if s = "" then d else s
  | none, d => d

/-- `x || d` for an optional numeric field of a JSON payload (`0` is falsy). -/
def jsOrNat : Option Nat → Nat → Nat
  | some n, d => if n = 0 then d else n
  | none, d => d

/-- A point of a stroke path; coordinate payloads are opaque to the server. -/
abbrev Point := Int × Int

/-- The stroke record the server builds in `case "draw_stroke"`. -/
structure Stroke where
  id : String
  participantId : String
  points : List Point
  color : String
  width : Nat
  tool : String
  timestamp : Nat
deriving DecidableEq, Repr

/-- `rooms[r]` entry value: `{ ws, joinedAt }`; sockets are numbered. -/
structure RoomEntry where
  ws : Nat
  joinedAt : Nat
deriving DecidableEq, Repr

/-- One room's membership `Map` (participantId -> entry). -/
abbrev RoomMap := List (String × RoomEntry)

/-- The per-connection closure variables of `wss.on("connection")`, plus the
socket's liveness (`readyState === 1`). -/
structure ConnState where
  participantId : Option String
  currentRoom : Option Nat
  live : Bool
deriving DecidableEq, Repr

/-- Whole-server state: the `rooms` dictionary, the connection table
(`wss.clients` plus each connection's closure variables), and the drawing
history buffer. -/
structure ServerState where
  rooms : List (Nat × RoomMap)
  conns : List (Nat × ConnState)
  drawingHistory : List Stroke
deriving DecidableEq, Repr

/-- `const MAX_DRAWING_HISTORY = 100`. -/
def MAX_DRAWING_HISTORY : Nat := 100

/-- Initial server state: rooms 1-4 empty, no connections, empty history. -/
def initState : ServerState :=
  { rooms := [(1, []), (2, []), (3, []), (4, [])], conns := [], drawingHistory := [] }

/-- Messages a client sends to the server (the parsed JSON payloads).
Optional fields model absent / possibly-falsy JSON members.  `drawStroke`
carries `claimedPid`/`claimedTs` to model a payload that also ships its own
`participantId`/`timestamp` values; the handler never reads them. -/
inductive ClientMsg where
  | join (participantId : String) (roomId : Nat)
  | leave
  | rtcOffer (targetId : Option String) (offer : String)
  | rtcAnswer (targetId : Option String) (answer : String)
  | rtcIceCandidate (targetId : Option String) (candidate : String)
  | chat (messageId : String) (text : String)
  | drawStroke (strokeId : String) (claimedPid : Option String) (claimedTs : Option Nat)
      (points : List Point) (color : Option String) (width : Option Nat) (tool : Option String)
  | clearDrawing
  | ping
  | unknown
deriving DecidableEq, Repr

/-- Messages the server sends to clients. -/
inductive SMsg where
  | presence (counts : List (Nat × Nat))
  | roomUsers (roomId : Nat) (users : List String)
  | userJoined (participantId : String) (roomId : Nat)
  | userLeft (participantId : String) (roomId : Nat)
  | rtcOffer (fromId : String) (offer : String)
  | rtcAnswer (fromId : String) (answer : String)
  | rtcIceCandidate (fromId : String) (candidate : String)
  | chatMessage (participantId : String) (messageId : String) (text : String) (timestamp : Nat)
  | drawStroke (stroke : Stroke)
  | clearDrawing (participantId : Option String)
  | drawingHistory (strokes : List Stroke)
  | pong
deriving DecidableEq, Repr

/-- An outbound delivery: (socket id, message). -/
abbrev Out := Nat × SMsg

/-- Is the socket `w` live (`readyState === 1`)? -/
def connLive (s : ServerState) (w : Nat) : Bool :=
  match alGet s.conns w with
  | some cs => cs.live
  | none => false

/-- `getRoomCounts()`. -/
def getRoomCounts (s : ServerState) : List (Nat × Nat) :=
  [ (1, ((alGet s.rooms 1).getD []).length),
    (2, ((alGet s.rooms 2).getD []).length),
    (3, ((alGet s.rooms 3).getD []).length),
    (4, ((alGet s.rooms 4).getD []).length) ]

/-- `ws !== excludeWs`: is the member socket distinct from the excluded one? -/
def notExcluded : Option Nat → Nat → Bool
  | some x, w => !(w == x)
  | none, _ => true

/-- `broadcastToRoom(roomId, message, excludeWs)`: send to every member's
live socket, in map order, skipping `excludeWs`. -/
def broadcastToRoom (s : ServerState) (roomId : Nat) (msg : SMsg)
    (exclude : Option Nat) : List Out :=
  match alGet s.rooms roomId with
  | none => []
  | some rm =>
      rm.filterMap (fun pe =>
        if notExcluded exclude pe.2.ws && connLive s pe.2.ws
        then some (pe.2.ws, msg) else none)

/-- `sendToParticipant(roomId, targetParticipantId, message)`. -/
def sendToParticipant (s : ServerState) (roomId : Nat) (target : String)
    (msg : SMsg) : List Out :=
  match alGet s.rooms roomId with
  | none => []
  | some rm =>
      match alGet rm target with
      | some e => if connLive s e.ws then [(e.ws, msg)] else []
      | none => []

/-- `broadcastPresence()`: presence counts to every live socket. -/
def broadcastPresence (s : ServerState) : List Out :=
  s.conns.filterMap (fun cc =>
    if cc.2.live then some (cc.1, SMsg.presence (getRoomCounts s)) else none)

/-- First phase of `case "join"`: leave the previous room only if actually
changing rooms, and only broadcast `user_left` if the participant was
actually recorded there. -/
def joinLeaveOld (s : ServerState) (cs : ConnState) (pid : String)
    (roomId : Nat) : ServerState × List Out :=
  match cs.currentRoom with
  | some cr =>
      if cr ≠ roomId then
        match alGet s.rooms cr with
        | some rm =>
            if alHas rm pid then
              let s' := { s with rooms := alUpdate s.rooms cr (fun r => alRemove r pid) }
              (s', broadcastToRoom s' cr (SMsg.userLeft pid cr) none)
            else (s, [])
        | none => (s, [])
      else (s, [])
  | none => (s, [])

/-- `case "join"` of the message handler. -/
def handleJoin (s : ServerState) (c : Nat) (cs : ConnState) (pid : String)
    (roomId : Nat) (now : Nat) : ServerState × List Out :=
  -- participantId = message.participantId
  let cs1 : ConnState := { cs with participantId := some pid }
  let step1 := joinLeaveOld s cs pid roomId
  let s1 := step1.1
  let outs1 := step1.2
  -- join new room
  let step2 : ServerState × ConnState × List Out :=
    match alGet s1.rooms roomId with
    | some rm2 =>
        let wasAlready := cs.currentRoom = some roomId ∧ alHas rm2 pid = true
        let cs2 : ConnState := { cs1 with currentRoom := some roomId }
        let s2 := { s1 with rooms := alUpdate s1.rooms roomId (fun r => alSet r pid ⟨c, now⟩) }
        let joinOuts := if wasAlready then []
          else broadcastToRoom s2 roomId (SMsg.userJoined pid roomId) (some c)
        let usersInRoom := (((alGet s2.rooms roomId).getD []).map Prod.fst).filter (· ≠ pid)
        let histOuts := if roomId = 4 ∧ s2.drawingHistory ≠ []
          then [(c, SMsg.drawingHistory s2.drawingHistory)] else []
        (s2, cs2, joinOuts ++ [(c, SMsg.roomUsers roomId usersInRoom)] ++ histOuts)
    | none => (s1, cs1, [])
  let s2 := step2.1
  let cs2 := step2.2.1
  let outs2 := step2.2.2
  let s3 := { s2 with conns := alSet s2.conns c cs2 }
  (s3, outs1 ++ outs2 ++ broadcastPresence s3)

/-- `case "leave"` of the message handler. -/
def handleLeave (s : ServerState) (c : Nat) (cs : ConnState) : ServerState × List Out :=
  match cs.currentRoom with
  | some cr =>
      match alGet s.rooms cr with
      | some _ =>
          if optStrTruthy cs.participantId then
            let pid := cs.participantId.getD ""
            let s1 := { s with rooms := alUpdate s.rooms cr (fun r => alRemove r pid) }
            let outs1 := broadcastToRoom s1 cr (SMsg.userLeft pid cr) none
            let s2 := { s1 with conns := alSet s1.conns c { cs with currentRoom := none } }
            (s2, outs1 ++ broadcastPresence s2)
          else (s, [])
      | none => (s, [])
  | none => (s, [])

/-- Shared body of the three WebRTC signaling cases: forward to the target in
the sender's current room, substituting `fromId`; no state change. -/
def handleRtc (s : ServerState) (cs : ConnState) (targetId : Option String)
    (mk : String → SMsg) : List Out :=
  match cs.currentRoom with
  | some cr =>
      if optStrTruthy cs.participantId ∧ optStrTruthy targetId then
        sendToParticipant s cr (targetId.getD "") (mk (cs.participantId.getD ""))
      else []
  | none => []

/-- `drawingHistory.push(stroke)` followed by the `slice(-MAX_DRAWING_HISTORY)`
trim. -/
def pushStroke (dh : List Stroke) (st : Stroke) : List Stroke :=
  let d := dh ++ [st]
  if d.length > MAX_DRAWING_HISTORY then d.drop (d.length - MAX_DRAWING_HISTORY) else d

/-- `case "draw_stroke"`. -/
def handleDraw (s : ServerState) (cs : ConnState) (strokeId : String)
    (points : List Point) (color : Option String) (width : Option Nat)
    (tool : Option String) (now : Nat) : ServerState × List Out :=
  if cs.currentRoom = some 4 ∧ optStrTruthy cs.participantId then
    let stroke : Stroke :=
      { id := strokeId
        participantId := cs.participantId.getD ""
        points := points
        color := jsOrStr color "#ffffff"
        width := jsOrNat width 2
        tool := jsOrStr tool "pen"
        timestamp := now }
    let s1 := { s with drawingHistory := pushStroke s.drawingHistory stroke }
    (s1, broadcastToRoom s1 4 (SMsg.drawStroke stroke) none)
  else (s, [])

/-- `case "clear_drawing"`. -/
def handleClear (s : ServerState) (cs : ConnState) : ServerState × List Out :=
  if cs.currentRoom = some 4 then
    let s1 := { s with drawingHistory := [] }
    (s1, broadcastToRoom s1 4 (SMsg.clearDrawing cs.participantId) none)
  else (s, [])

/-- The `ws.on("message")` dispatcher for one parsed message. -/
def handleMsg (s : ServerState) (c : Nat) (cs : ConnState) (m : ClientMsg)
    (now : Nat) : ServerState × List Out :=
  match m with
  | ClientMsg.join pid roomId => handleJoin s c cs pid roomId now
  | ClientMsg.leave => handleLeave s c cs
  | ClientMsg.rtcOffer targetId offer =>
      (s, handleRtc s cs targetId (fun fromId => SMsg.rtcOffer fromId offer))
  | ClientMsg.rtcAnswer targetId answer =>
      (s, handleRtc s cs targetId (fun fromId => SMsg.rtcAnswer fromId answer))
  | ClientMsg.rtcIceCandidate targetId cand =>
      (s, handleRtc s cs targetId (fun fromId => SMsg.rtcIceCandidate fromId cand))
  | ClientMsg.chat messageId text =>
      if cs.currentRoom = some 3 ∧ optStrTruthy cs.participantId then
        (s, broadcastToRoom s 3
          (SMsg.chatMessage (cs.participantId.getD "") messageId text now) (some c))
      else (s, [])
  | ClientMsg.drawStroke strokeId _ _ points color width tool =>
      handleDraw s cs strokeId points color width tool now
  | ClientMsg.clearDrawing => handleClear s cs
  | ClientMsg.ping => (s, [(c, SMsg.pong)])
  | ClientMsg.unknown => (s, [])

/-- The `ws.on("close")` handler: the socket leaves `wss.clients` (modelled
as `live := false`), then the leave-style cleanup runs.  `currentRoom` is not
reset by the source's close handler. -/
def handleClose (s : ServerState) (c : Nat) (cs : ConnState) : ServerState × List Out :=
  let cs0 : ConnState := { cs with live := false }
  let s0 := { s with conns := alSet s.conns c cs0 }
  match cs0.currentRoom with
  | some cr =>
      match alGet s0.rooms cr with
      | some _ =>
          if optStrTruthy cs0.participantId then
            let pid := cs0.participantId.getD ""
            let s1 := { s0 with rooms := alUpdate s0.rooms cr (fun r => alRemove r pid) }
            let outs1 := broadcastToRoom s1 cr (SMsg.userLeft pid cr) none
            (s1, outs1 ++ broadcastPresence s1)
          else (s0, [])
      | none => (s0, [])
  | none => (s0, [])

/-- Server events: a new socket connecting, a parsed message from a live
socket (`now` is the value `Date.now()` returns while handling it), or a
socket closing. -/
inductive SEvent where
  | connect (c : Nat)
  | msg (c : Nat) (m : ClientMsg) (now : Nat)
  | close (c : Nat)
deriving DecidableEq, Repr

/-- One server step.  Messages from unknown or non-live sockets cannot occur
and are no-ops. -/
def serverStep (s : ServerState) (e : SEvent) : ServerState × List Out :=
  match e with
  | SEvent.connect c =>
      if alHas s.conns c then (s, [])
      else
        let s1 := { s with conns := s.conns ++ [(c, ⟨none, none, true⟩)] }
        (s1, [(c, SMsg.presence (getRoomCounts s1))])
  | SEvent.msg c m now =>
      match alGet s.conns c with
      | some cs => if cs.live then handleMsg s c cs m now else (s, [])
      | none => (s, [])
  | SEvent.close c =>
      match alGet s.conns c with
      | some cs => if cs.live then handleClose s c cs else (s, [])
      | none => (s, [])

/-- Run a sequence of events, keeping only the final state. -/
def execServer (s : ServerState) (es : List SEvent) : ServerState :=
  es.foldl (fun st e => (serverStep st e).1) s

/-! ### Client embedding (`Room1VideoOnly.jsx`, the peer-connection
orchestrator) -/

/-- `RTCPeerConnection.connectionState`. -/
inductive PCConnState where
  | fresh | connecting | connected | disconnected | failed | closed
deriving DecidableEq, Repr

/-- `RTCPeerConnection.iceConnectionState`. -/
inductive ICEState where
  | iceFresh | checking | iceConnected | completed | iceDisconnected | iceFailed | iceClosed
deriving DecidableEq, Repr

/-- One `RTCPeerConnection` as the orchestrator observes it. -/
structure PC where
  connectionState : PCConnState
  iceConnectionState : ICEState
deriving DecidableEq, Repr

/-- A pending entry of `reconnectTimeoutsRef`: the armed delay and the
connection state the timeout callback re-checks before removing the peer. -/
structure RTimer where
  delayMs : Nat
  guard : PCConnState
deriving DecidableEq, Repr

/-- Observable side effects of the orchestrator: signaling messages handed to
`sendRtcSignal`, `pc.close()` calls, and `pc.restartIce()` calls. -/
inductive CAction where
  | sendOffer (targetId : String)
  | sendAnswer (targetId : String)
  | closePC (peerId : String)
  | restartIce (peerId : String)
deriving DecidableEq, Repr

/-- Orchestrator state: `peersRef`, `pendingUsersRef`, `pendingOffersRef`
(fromId and the opaque queued offer payload), `reconnectTimeoutsRef`, and
whether `localStreamRef.current` is set. -/
structure ClientState where
  selfId : String
  streamReady : Bool
  peers : List (String × PC)
  pendingUsers : List String
  pendingOffers : List (String × String)
  timers : List (String × RTimer)
deriving DecidableEq, Repr

/-- A freshly constructed `RTCPeerConnection`. -/
def newPC : PC := ⟨PCConnState.fresh, ICEState.iceFresh⟩

/-- `removePeer(peerId)`: clear the pending timeout, `pc.close()`, drop the
table entry.  No-op when no connection exists. -/
def removePeer (s : ClientState) (p : String) : ClientState × List CAction :=
  if alHas s.peers p then
    ({ s with peers := alRemove s.peers p, timers := alRemove s.timers p },
     [CAction.closePC p])
  else (s, [])

/-- `connectToPeer(peerId, stream)`: skip if already connected, otherwise
create the connection and send one offer. -/
def connectToPeer (s : ClientState) (p : String) : ClientState × List CAction :=
  if alHas s.peers p then (s, [])
  else ({ s with peers := s.peers ++ [(p, newPC)] }, [CAction.sendOffer p])

/-- `handleOffer(fromId, offer, stream)`: close and drop any existing
connection (renegotiation / glare), create a fresh one, send one answer.
Note the source does not clear `reconnectTimeoutsRef` here. -/
def handleOffer (s : ClientState) (fromId : String) : ClientState × List CAction :=
  let step1 : ClientState × List CAction :=
    if alHas s.peers fromId then
      ({ s with peers := alRemove s.peers fromId }, [CAction.closePC fromId])
    else (s, [])
  let s2 := { step1.1 with peers := step1.1.peers ++ [(fromId, newPC)] }
  (s2, step1.2 ++ [CAction.sendAnswer fromId])

/-- The `forEach` over a copied pending-users queue in the drain effect. -/
def drainUsersGo (s : ClientState) : List String → ClientState × List CAction
  | [] => (s, [])
  | u :: us =>
      let r1 := connectToPeer s u
      let r2 := drainUsersGo r1.1 us
      (r2.1, r1.2 ++ r2.2)

/-- The `forEach` over a copied pending-offers queue in the drain effect. -/
def drainOffersGo (s : ClientState) : List (String × String) → ClientState × List CAction
  | [] => (s, [])
  | fo :: fos =>
      let r1 := handleOffer s fo.1
      let r2 := drainOffersGo r1.1 fos
      (r2.1, r1.2 ++ r2.2)

/-- Client events: signaling-handler invocations, the local stream becoming
ready, engine connection/ICE state reports, and a recovery timeout firing. -/
inductive CEvent where
  | roomUsers (users : List String)
  | userJoined (u : String)
  | rtcOffer (fromId : String) (offer : String)
  | streamReady
  | connChange (p : String) (st : PCConnState)
  | iceChange (p : String) (st : ICEState)
  | timerFire (p : String)
deriving DecidableEq, Repr

/-- `onRoomUsers`: for each listed user other than self: skip when already
connected; connect when the stream is ready; otherwise queue with dedup. -/
def onRoomUsers (s : ClientState) : List String → ClientState × List CAction
  | [] => (s, [])
  | u :: us =>
      let r1 : ClientState × List CAction :=
        if u = s.selfId then (s, [])
        else if alHas s.peers u then (s, [])
        else if s.streamReady then connectToPeer s u
        else if u ∈ s.pendingUsers then (s, [])
        else ({ s with pendingUsers := s.pendingUsers ++ [u] }, [])
      let r2 := onRoomUsers r1.1 us
      (r2.1, r1.2 ++ r2.2)

/-- `onUserJoined`: connect now, or queue (without dedup). -/
def onUserJoined (s : ClientState) (u : String) : ClientState × List CAction :=
  if s.streamReady then connectToPeer s u
  else ({ s with pendingUsers := s.pendingUsers ++ [u] }, [])

/-- `onRtcOffer`: handle now, or queue the offer. -/
def onRtcOffer (s : ClientState) (fromId : String) (offer : String) :
    ClientState × List CAction :=
  if s.streamReady then handleOffer s fromId
  else ({ s with pendingOffers := s.pendingOffers ++ [(fromId, offer)] }, [])

/-- The stream becoming ready: both drain effects run in declaration order
(pending users first, then pending offers), each copying its queue and
clearing it before processing the copy. -/
def onStreamReady (s : ClientState) : ClientState × List CAction :=
  let s0 := { s with streamReady := true }
  let us := s0.pendingUsers
  let r1 := drainUsersGo { s0 with pendingUsers := [] } us
  let os := r1.1.pendingOffers
  let r2 := drainOffersGo { r1.1 with pendingOffers := [] } os
  (r2.1, r1.2 ++ r2.2)

/-- `pc.onconnectionstatechange`: the engine has already updated
`pc.connectionState`; the handler reacts to the new value. -/
def onConnChange (s : ClientState) (p : String) (st : PCConnState) :
    ClientState × List CAction :=
  match alGet s.peers p with
  | none => (s, [])
  | some pc =>
      let s0 := { s with peers := alSet s.peers p { pc with connectionState := st } }
      match st with
      | PCConnState.closed => removePeer s0 p
      | PCConnState.failed =>
          ({ s0 with timers := alSet s0.timers p ⟨20000, PCConnState.failed⟩ },
           [CAction.restartIce p])
      | PCConnState.disconnected =>
          ({ s0 with timers := alSet s0.timers p ⟨30000, PCConnState.disconnected⟩ },
           [CAction.restartIce p])
      | PCConnState.connected =>
          ({ s0 with timers := alRemove s0.timers p }, [])
      | _ => (s0, [])

/-- `pc.oniceconnectionstatechange`. -/
def onIceChange (s : ClientState) (p : String) (st : ICEState) :
    ClientState × List CAction :=
  match alGet s.peers p with
  | none => (s, [])
  | some pc =>
      let s0 := { s with peers := alSet s.peers p { pc with iceConnectionState := st } }
      match st with
      | ICEState.iceFailed => (s0, [CAction.restartIce p])
      | ICEState.iceDisconnected => (s0, [CAction.restartIce p])
      | ICEState.iceConnected => ({ s0 with timers := alRemove s0.timers p }, [])
      | ICEState.completed => ({ s0 with timers := alRemove s0.timers p }, [])
      | _ => (s0, [])

/-- A recovery timeout firing: the timer is no longer pending; its callback
removes the peer only if the connection still reports the guarded state. -/
def onTimerFire (s : ClientState) (p : String) : ClientState × List CAction :=
  match alGet s.timers p with
  | none => (s, [])
  | some t =>
      let s1 := { s with timers := alRemove s.timers p }
      match alGet s1.peers p with
      | some pc =>
          if pc.connectionState = t.guard then removePeer s1 p else (s1, [])
      | none => (s1, [])

/-- One orchestrator step. -/
def clientStep (s : ClientState) (e : CEvent) : ClientState × List CAction :=
  match e with
  | CEvent.roomUsers users => onRoomUsers s users
  | CEvent.userJoined u => onUserJoined s u
  | CEvent.rtcOffer f o => onRtcOffer s f o
  | CEvent.streamReady => onStreamReady s
  | CEvent.connChange p st => onConnChange s p st
  | CEvent.iceChange p st => onIceChange s p st
  | CEvent.timerFire p => onTimerFire s p

/-- Concrete membership map used by witness states: "p" on socket 0 and "b"
on socket 1. -/
def rmW : RoomMap := [("p", ⟨0, 0⟩), ("b", ⟨1, 0⟩)]

/-- Concrete connection state of socket 0 in witness states (room 1). -/
def csW : ConnState := ⟨some "p", some 1, true⟩

/-- Concrete server state: "p" and "b" in room 1. -/
def sW : ServerState :=
  { rooms := [(1, rmW), (2, []), (3, []), (4, [])],
    conns := [(0, csW), (1, ⟨some "b", some 1, true⟩)],
    drawingHistory := [] }

/-- Concrete connection state of socket 0 in the Talk-room witness state. -/
def csW3 : ConnState := ⟨some "p", some 3, true⟩

/-- Concrete server state: "p" and "b" in room 3 (Talk). -/
def sW3 : ServerState :=
  { rooms := [(1, []), (2, []), (3, rmW), (4, [])],
    conns := [(0, csW3), (1, ⟨some "b", some 3, true⟩)],
    drawingHistory := [] }

/-! ### Client-side lemmas -/

/-- How many entries of an association list carry key `k`. -/
def countKey [DecidableEq κ] (m : List (κ × α)) (k : κ) : Nat :=
  (m.filter (fun q => decide (q.1 = k))).length

/-- Is this action a `sendAnswer`? -/
def isAnswerAct : CAction → Bool
  | CAction.sendAnswer _ => true
  | _ => false

theorem filter_key_alRemove [DecidableEq κ] (m : List (κ × α)) (k : κ) :
    (alRemove m k).filter (fun q => decide (q.1 = k)) = [] := by
  induction m with
  | nil => simp [alRemove]
  | cons hd tl ih =>
    obtain ⟨k0, v0⟩ := hd
    by_cases h0 : k0 = k
    · simp [alRemove, h0, ih]
    · simp [alRemove, h0, ih]

theorem countKey_alRemove [DecidableEq κ] (m : List (κ × α)) (k : κ) :
    countKey (alRemove m k) k = 0 := by
  simp [countKey, filter_key_alRemove]

theorem countKey_append [DecidableEq κ] (m l : List (κ × α)) (k : κ) :
    countKey (m ++ l) k = countKey m k + countKey l k := by
  simp [countKey, List.filter_append]

theorem countKey_of_alGet_none [DecidableEq κ] {m : List (κ × α)} {k : κ}
    (h : alGet m k = none) : countKey m k = 0 := by
  induction m with
  | nil => simp [countKey]
  | cons hd tl ih =>
    obtain ⟨k0, v0⟩ := hd
    by_cases h0 : k0 = k
    · simp [alGet, h0] at h
    · simp only [alGet, if_neg h0] at h
      simpa [countKey, h0] using ih h

theorem alRemove_of_alGet_none [DecidableEq κ] {m : List (κ × α)} {k : κ}
    (h : alGet m k = none) : alRemove m k = m := by
  induction m with
  | nil => simp [alRemove]
  | cons hd tl ih =>
    obtain ⟨k0, v0⟩ := hd
    by_cases h0 : k0 = k
    · simp [alGet, h0] at h
    · simp only [alGet, if_neg h0] at h
      simp [alRemove, h0, ih h]

theorem alRemove_idem [DecidableEq κ] (m : List (κ × α)) (k : κ) :
    alRemove (alRemove m k) k = alRemove m k :=
  alRemove_of_alGet_none (alGet_alRemove_self m k)

theorem alGet_append_single_of_none [DecidableEq κ] {m : List (κ × α)} {k : κ}
    (h : alGet m k = none) (v : α) : alGet (m ++ [(k, v)]) k = some v := by
  induction m with
  | nil => simp [alGet]
  | cons hd tl ih =>
    obtain ⟨k0, v0⟩ := hd
    by_cases h0 : k0 = k
    · simp [alGet, h0] at h
    · simp only [alGet, if_neg h0] at h
      simpa [alGet, h0] using ih h

theorem alHas_append_self [DecidableEq κ] (m : List (κ × α)) (k : κ) (v : α) :
    alHas (m ++ [(k, v)]) k = true := by
  induction m with
  | nil => simp [alHas, alGet]
  | cons hd tl ih =>
    obtain ⟨k0, v0⟩ := hd
    by_cases h0 : k0 = k
    · simp [alHas, alGet, h0]
    · simpa [alHas, alGet, h0] using ih

/-- `connectToPeer` never disconnects a known peer. -/
theorem connectToPeer_preserves_alHas {s : ClientState} {u : String}
    (h : alHas s.peers u = true) (v : String) :
    alHas (connectToPeer s v).1.peers u = true := by
  unfold connectToPeer
  by_cases hv : alHas s.peers v = true
  · simpa [hv] using h
  · simp only [Bool.not_eq_true] at hv
    simp only [hv, Bool.false_eq_true, if_false]
    simp only [alHas] at h ⊢
    obtain ⟨w, hw⟩ := Option.isSome_iff_exists.mp h
    exact Option.isSome_iff_exists.mpr ⟨w, alGet_append_of_some hw⟩

/-- Fields other than `peers` are untouched by `connectToPeer`. -/
theorem connectToPeer_fields (s : ClientState) (v : String) :
    (connectToPeer s v).1.pendingUsers = s.pendingUsers ∧
    (connectToPeer s v).1.pendingOffers = s.pendingOffers ∧
    (connectToPeer s v).1.streamReady = s.streamReady := by
  unfold connectToPeer
  split <;> simp

/-- Fields other than `peers` are untouched by `handleOffer`. -/
theorem handleOffer_fields (s : ClientState) (f : String) :
    (handleOffer s f).1.pendingUsers = s.pendingUsers ∧
    (handleOffer s f).1.pendingOffers = s.pendingOffers ∧
    (handleOffer s f).1.streamReady = s.streamReady := by
  unfold handleOffer
  split <;> simp_all

theorem drainUsersGo_fields (us : List String) (s : ClientState) :
    (drainUsersGo s us).1.pendingUsers = s.pendingUsers ∧
    (drainUsersGo s us).1.pendingOffers = s.pendingOffers := by
  induction us generalizing s with
  | nil => simp [drainUsersGo]
  | cons u us ih =>
    have h1 := connectToPeer_fields s u
    have h2 := ih (connectToPeer s u).1
    simp only [drainUsersGo]
    exact ⟨h2.1.trans h1.1, h2.2.trans h1.2.1⟩

theorem drainOffersGo_fields (os : List (String × String)) (s : ClientState) :
    (drainOffersGo s os).1.pendingUsers = s.pendingUsers ∧
    (drainOffersGo s os).1.pendingOffers = s.pendingOffers := by
  induction os generalizing s with
  | nil => simp [drainOffersGo]
  | cons o os ih =>
    have h1 := handleOffer_fields s o.1
    have h2 := ih (handleOffer s o.1).1
    simp only [drainOffersGo]
    exact ⟨h2.1.trans h1.1, h2.2.trans h1.2.1⟩

/-- Every action emitted while draining queued users is an offer. -/
theorem drainUsersGo_actions (us : List String) (s : ClientState) :
    ∀ a ∈ (drainUsersGo s us).2, ∃ u, a = CAction.sendOffer u := by
  induction us generalizing s with
  | nil => simp [drainUsersGo]
  | cons u us ih =>
    intro a ha
    simp only [drainUsersGo, List.mem_append] at ha
    rcases ha with ha | ha
    · unfold connectToPeer at ha
      split at ha
      · simp at ha
      · simp at ha
        exact ⟨u, ha⟩
    · exact ih _ a ha

/-- A user already present in the peer table is never offered to while
draining. -/
theorem drainUsersGo_no_offer_if_connected (us : List String) (s : ClientState)
    (u : String) (h : alHas s.peers u = true) :
    ∀ a ∈ (drainUsersGo s us).2, a ≠ CAction.sendOffer u := by
  induction us generalizing s with
  | nil => simp [drainUsersGo]
  | cons v us ih =>
    intro a ha
    simp only [drainUsersGo, List.mem_append] at ha
    rcases ha with ha | ha
    · unfold connectToPeer at ha
      split at ha
      · simp at ha
      · next hv =>
        simp at ha
        subst ha
        intro hcontra
        have huv : v = u := by
          have := CAction.sendOffer.inj hcontra
          exact this
        rw [huv] at hv
        exact hv h
    · exact ih _ (connectToPeer_preserves_alHas h v) a ha

/-- At most one offer is sent to any given user while draining the
pending-users queue (the skip-if-connected guard dedups). -/
theorem drainUsersGo_offer_count (us : List String) (s : ClientState) (u : String) :
    ((drainUsersGo s us).2.filter (fun a => decide (a = CAction.sendOffer u))).length ≤ 1 := by
  induction us generalizing s with
  | nil => simp [drainUsersGo]
  | cons v us ih =>
    simp only [drainUsersGo, List.filter_append, List.length_append]
    by_cases hv : alHas s.peers v = true
    · simpa [connectToPeer, hv] using ih s
    · simp only [Bool.not_eq_true] at hv
      by_cases huv : v = u
      · subst huv
        have hconn : alHas (connectToPeer s v).1.peers v = true := by
          unfold connectToPeer
          simp [hv, alHas_append_self]
        have hnone := drainUsersGo_no_offer_if_connected us (connectToPeer s v).1 v hconn
        have hnil : (drainUsersGo (connectToPeer s v).1 us).2.filter
            (fun a => decide (a = CAction.sendOffer v)) = [] :=
          List.filter_eq_nil_iff.mpr (fun a ha => by simpa using hnone a ha)
        rw [hnil]
        simp [connectToPeer, hv]
      · have h0 : (connectToPeer s v).2.filter
            (fun a => decide (a = CAction.sendOffer u)) = [] := by
          simp [connectToPeer, hv, huv]
        rw [h0]
        simpa using ih (connectToPeer s v).1

/-- Draining the queued offers answers each of them, exactly once, in order. -/
theorem drainOffersGo_answers (os : List (String × String)) (s : ClientState) :
    (drainOffersGo s os).2.filter isAnswerAct
      = os.map (fun fo => CAction.sendAnswer fo.1) := by
  induction os generalizing s with
  | nil => simp [drainOffersGo]
  | cons fo fos ih =>
    simp only [drainOffersGo, List.filter_append, List.map_cons]
    have h1 : (handleOffer s fo.1).2.filter isAnswerAct = [CAction.sendAnswer fo.1] := by
      unfold handleOffer
      split <;> simp [isAnswerAct]
    rw [h1, ih]
    simp

/-- Draining the queued offers never emits an offer. -/
theorem drainOffersGo_no_offers (os : List (String × String)) (s : ClientState)
    (u : String) : ∀ a ∈ (drainOffersGo s os).2, a ≠ CAction.sendOffer u := by
  induction os generalizing s with
  | nil => simp [drainOffersGo]
  | cons fo fos ih =>
    intro a ha
    simp only [drainOffersGo, List.mem_append] at ha
    rcases ha with ha | ha
    · unfold handleOffer at ha
      split at ha <;> simp_all
      rcases ha with ha | ha <;> simp [ha]
    · exact ih _ a ha

/-- Draining the queued users never emits an answer. -/
theorem drainUsersGo_no_answers (us : List String) (s : ClientState) :
    (drainUsersGo s us).2.filter isAnswerAct = [] := by
  apply List.filter_eq_nil_iff.mpr
  intro a ha
  obtain ⟨u, hu⟩ := drainUsersGo_actions us s a ha
  simp [hu, isAnswerAct]

/-! ### Server-side lemmas -/

theorem optStrTruthy_iff (o : Option String) :
    optStrTruthy o = true ↔ ∃ p, o = some p ∧ p ≠ "" := by
  cases o <;> simp [optStrTruthy]

theorem alGet_mem [DecidableEq κ] {m : List (κ × α)} {k : κ} {v : α}
    (h : alGet m k = some v) : (k, v) ∈ m := by
  induction m with
  | nil => simp [alGet] at h
  | cons hd tl ih =>
    obtain ⟨k0, v0⟩ := hd
    by_cases h0 : k0 = k
    · subst h0
      simp [alGet] at h
      simp [h]
    · simp only [alGet, if_neg h0] at h
      exact List.mem_cons_of_mem _ (ih h)

theorem mem_alRemove_of_mem [DecidableEq κ] {m : List (κ × α)} {k k' : κ} {v' : α}
    (h : (k', v') ∈ m) (hne : k' ≠ k) : (k', v') ∈ alRemove m k := by
  induction m with
  | nil => simp at h
  | cons hd tl ih =>
    obtain ⟨k0, v0⟩ := hd
    rcases List.mem_cons.mp h with heq | hmem
    · have hk : k0 = k' := (congrArg Prod.fst heq).symm
      have : ¬k0 = k := by rw [hk]; exact hne
      simp only [alRemove, if_neg this]
      exact List.mem_cons.mpr (Or.inl heq)
    · by_cases h0 : k0 = k
      · simp only [alRemove, if_pos h0]
        exact ih hmem
      · simp only [alRemove, if_neg h0]
        exact List.mem_cons_of_mem _ (ih hmem)

/-- Who receives a room broadcast: exactly the live, non-excluded member
sockets of the room, all carrying the broadcast message. -/
theorem mem_broadcastToRoom_iff {s : ServerState} {r : Nat} {msg : SMsg}
    {ex : Option Nat} {d : Nat} {m : SMsg} :
    (d, m) ∈ broadcastToRoom s r msg ex ↔
      (m = msg ∧ ∃ rm, alGet s.rooms r = some rm ∧
        ∃ pe ∈ rm, pe.2.ws = d ∧ notExcluded ex d = true ∧ connLive s d = true) := by
  unfold broadcastToRoom
  cases hr : alGet s.rooms r with
  | none => simp
  | some rm =>
    simp only [List.mem_filterMap]
    constructor
    · rintro ⟨pe, hpe, hcond⟩
      split at hcond
      · next hc =>
        have hpair := Option.some.inj hcond
        have hd : pe.2.ws = d := congrArg Prod.fst hpair
        have hm : msg = m := congrArg Prod.snd hpair
        rw [Bool.and_eq_true] at hc
        obtain ⟨hex, hlv⟩ := hc
        rw [hd] at hex hlv
        exact ⟨hm.symm, rm, rfl, pe, hpe, hd, hex, hlv⟩
      · exact absurd hcond (by simp)
    · rintro ⟨hm, rm', hrm', pe, hpe, hd, hex, hlv⟩
      subst hm
      have hrr : rm = rm' := Option.some.inj hrm'
      subst hrr
      refine ⟨pe, hpe, ?_⟩
      rw [hd]
      simp [hex, hlv]

/-- Every presence broadcast element carries the presence message. -/
theorem broadcastPresence_msg {s : ServerState} {d : Nat} {m : SMsg}
    (h : (d, m) ∈ broadcastPresence s) : m = SMsg.presence (getRoomCounts s) := by
  unfold broadcastPresence at h
  rcases List.mem_filterMap.mp h with ⟨cc, _, hcc⟩
  split at hcc
  · exact (congrArg Prod.snd (Option.some.inj hcc)).symm
  · exact absurd hcc (by simp)

/-- Every live connection receives the presence broadcast. -/
theorem broadcastPresence_mem {s : ServerState} {cid : Nat} {ccs : ConnState}
    (h : alGet s.conns cid = some ccs) (hlive : ccs.live = true) :
    (cid, SMsg.presence (getRoomCounts s)) ∈ broadcastPresence s := by
  unfold broadcastPresence
  exact List.mem_filterMap.mpr ⟨(cid, ccs), alGet_mem h, by simp [hlive]⟩

/-- A message event from a live connection runs the dispatcher. -/
theorem serverStep_msg_live {s : ServerState} {c : Nat} {cs : ConnState}
    {m : ClientMsg} {now : Nat} (hconn : alGet s.conns c = some cs)
    (hlive : cs.live = true) :
    serverStep s (SEvent.msg c m now) = handleMsg s c cs m now := by
  simp [serverStep, hconn, hlive]

/-! ### Claim theorems: client side -/

/-- Membership characterization of the shared WebRTC-forwarding body: a
delivery happens iff the sender has a current room and a truthy ID, a truthy
`targetId` was supplied, and the target is a member of that room with a live
socket; the one delivery goes to the target socket carrying the sender-ID
substitution. -/
theorem handleRtc_chars (s : ServerState) (cs : ConnState) (tid : Option String)
    (mk : String → SMsg) (d : Nat) (m : SMsg) :
    (d, m) ∈ handleRtc s cs tid mk ↔
      ∃ cr p t rm e, cs.currentRoom = some cr ∧ cs.participantId = some p ∧ p ≠ "" ∧
        tid = some t ∧ t ≠ "" ∧ alGet s.rooms cr = some rm ∧ alGet rm t = some e ∧
        connLive s e.ws = true ∧ d = e.ws ∧ m = mk p := by
  unfold handleRtc
  cases hcur : cs.currentRoom with
  | none => simp [hcur]
  | some cr =>
    by_cases hp : optStrTruthy cs.participantId = true
    · rcases (optStrTruthy_iff cs.participantId).mp hp with ⟨p, hpid, hpne⟩
      by_cases ht : optStrTruthy tid = true
      · rcases (optStrTruthy_iff tid).mp ht with ⟨t, htid, htne⟩
        simp only [hp, ht, and_self, if_true]
        unfold sendToParticipant
        cases hr : alGet s.rooms cr with
        | none =>
          simp only [List.not_mem_nil, false_iff]
          rintro ⟨cr2, p2, t2, rm2, e2, hc2, -, -, -, -, hr2, -, -, -, -⟩
          have hcc : cr = cr2 := Option.some.inj hc2
          rw [← hcc, hr] at hr2
          exact Option.noConfusion hr2
        | some rm =>
          rw [hpid, htid]
          simp only [Option.getD_some]
          cases he : alGet rm t with
          | none =>
            simp only [List.not_mem_nil, false_iff]
            rintro ⟨cr2, p2, t2, rm2, e2, hc2, -, -, ht2, -, hr2, he2, -, -, -⟩
            have hcc : cr = cr2 := Option.some.inj hc2
            rw [← hcc, hr] at hr2
            have hrr : rm = rm2 := Option.some.inj hr2
            have htt : t = t2 := Option.some.inj ht2
            rw [← hrr, ← htt, he] at he2
            exact Option.noConfusion he2
          | some e =>
            by_cases hlv : connLive s e.ws = true
            · simp only [hlv, if_true, List.mem_singleton, Prod.mk.injEq]
              constructor
              · rintro ⟨hd, hm⟩
                exact ⟨cr, p, t, rm, e, rfl, rfl, hpne, rfl, htne, hr, he, hlv, hd, hm⟩
              · rintro ⟨cr2, p2, t2, rm2, e2, hc2, hp2, -, ht2, -, hr2, he2, -, hd, hm⟩
                have hcc : cr = cr2 := Option.some.inj hc2
                rw [← hcc, hr] at hr2
                have hrr : rm = rm2 := Option.some.inj hr2
                have htt : t = t2 := Option.some.inj ht2
                rw [← hrr, ← htt, he] at he2
                have hee : e = e2 := Option.some.inj he2
                have hpp : p = p2 := Option.some.inj hp2
                rw [← hee] at hd
                rw [← hpp] at hm
                exact ⟨hd, hm⟩
            · simp only [Bool.not_eq_true] at hlv
              simp only [hlv, Bool.false_eq_true, if_false, List.not_mem_nil, false_iff]
              rintro ⟨cr2, p2, t2, rm2, e2, hc2, -, -, ht2, -, hr2, he2, hlv2, -, -⟩
              have hcc : cr = cr2 := Option.some.inj hc2
              rw [← hcc, hr] at hr2
              have hrr : rm = rm2 := Option.some.inj hr2
              have htt : t = t2 := Option.some.inj ht2
              rw [← hrr, ← htt, he] at he2
              have hee : e = e2 := Option.some.inj he2
              rw [← hee, hlv] at hlv2
              exact Bool.noConfusion hlv2
      · have hcond : ¬(optStrTruthy cs.participantId = true ∧ optStrTruthy tid = true) :=
          fun hc => ht hc.2
        simp only [hcond, if_false, List.not_mem_nil, false_iff]
        rintro ⟨cr2, p2, t2, rm2, e2, -, -, -, ht2, htne2, -, -, -, -, -⟩
        exact ht ((optStrTruthy_iff tid).mpr ⟨t2, ht2, htne2⟩)
    · have hcond : ¬(optStrTruthy cs.participantId = true ∧ optStrTruthy tid = true) :=
        fun hc => hp hc.1
      simp only [hcond, if_false, List.not_mem_nil, false_iff]
      rintro ⟨cr2, p2, t2, rm2, e2, -, hp2, hpne2, -, -, -, -, -, -, -⟩
      exact hp ((optStrTruthy_iff cs.participantId).mpr ⟨p2, hp2, hpne2⟩)

theorem notExcluded_some_iff (x w : Nat) : notExcluded (some x) w = true ↔ w ≠ x := by
  simp [notExcluded]

theorem notExcluded_none_eq (w : Nat) : notExcluded none w = true := rfl

theorem connLive_drawingHistory (s : ServerState) (dh : List Stroke) (w : Nat) :
    connLive { s with drawingHistory := dh } w = connLive s w := rfl

/-- C7: a `message` is processed only when the sender's current room is the
Talk room (room 3) and its broadcast reaches exactly the live members of that
room other than the sender's socket; a `draw_stroke` is processed only when
the sender's current room is the drawing room (room 4) and its broadcast
reaches exactly the live members of that room, the sender included; an
out-of-room `message` or `draw_stroke` is silently ignored: no reply, no
state change. -/
theorem C7_room_scoped_broadcasts (s : ServerState) (c : Nat) (cs : ConnState) (p : String)
    (mid text sid : String) (pts : List Point) (col : Option String) (w : Option Nat)
    (tl : Option String) (cp : Option String) (ct : Option Nat) (now : Nat)
    (hconn : alGet s.conns c = some cs) (hlive : cs.live = true)
    (hpid : cs.participantId = some p) (hpne : p ≠ "") :
    (cs.currentRoom = some 3 →
      (serverStep s (SEvent.msg c (ClientMsg.chat mid text) now)).1 = s ∧
      ∀ d m, (d, m) ∈ (serverStep s (SEvent.msg c (ClientMsg.chat mid text) now)).2 ↔
        (m = SMsg.chatMessage p mid text now ∧ ∃ rm, alGet s.rooms 3 = some rm ∧
          ∃ pe ∈ rm, pe.2.ws = d ∧ d ≠ c ∧ connLive s d = true)) ∧
    (cs.currentRoom ≠ some 3 →
      serverStep s (SEvent.msg c (ClientMsg.chat mid text) now) = (s, [])) ∧
    (cs.currentRoom = some 4 →
      ∃ st : Stroke,
        ∀ d m, (d, m) ∈ (serverStep s
            (SEvent.msg c (ClientMsg.drawStroke sid cp ct pts col w tl) now)).2 ↔
          (m = SMsg.drawStroke st ∧ ∃ rm, alGet s.rooms 4 = some rm ∧
            ∃ pe ∈ rm, pe.2.ws = d ∧ connLive s d = true)) ∧
    (cs.currentRoom ≠ some 4 →
      serverStep s (SEvent.msg c (ClientMsg.drawStroke sid cp ct pts col w tl) now)
        = (s, [])) := by
  rw [serverStep_msg_live hconn hlive, serverStep_msg_live hconn hlive]
  have hpt : optStrTruthy cs.participantId = true := (optStrTruthy_iff _).mpr ⟨p, hpid, hpne⟩
  refine ⟨?_, ?_, ?_, ?_⟩
  · intro hcur
    have hred : handleMsg s c cs (ClientMsg.chat mid text) now
        = (s, broadcastToRoom s 3
            (SMsg.chatMessage (cs.participantId.getD "") mid text now) (some c)) := by
      simp [handleMsg, hcur, hpt]
    rw [hred, hpid]
    refine ⟨rfl, ?_⟩
    intro d m
    rw [mem_broadcastToRoom_iff]
    simp [notExcluded_some_iff]
  · intro hcur
    have hred : handleMsg s c cs (ClientMsg.chat mid text) now = (s, []) := by
      simp [handleMsg, hcur]
    exact hred
  · intro hcur
    refine ⟨⟨sid, p, pts, jsOrStr col "#ffffff", jsOrNat w 2, jsOrStr tl "pen", now⟩, ?_⟩
    intro d m
    have hred : (handleMsg s c cs (ClientMsg.drawStroke sid cp ct pts col w tl) now).2
        = broadcastToRoom { s with drawingHistory := pushStroke s.drawingHistory (⟨sid, p, pts, jsOrStr col "#ffffff", jsOrNat w 2, jsOrStr tl "pen", now⟩ : Stroke) } 4 (SMsg.drawStroke (⟨sid, p, pts, jsOrStr col "#ffffff", jsOrNat w 2, jsOrStr tl "pen", now⟩ : Stroke)) none := by
      simp [handleMsg, handleDraw, hcur, hpt, hpid, optStrTruthy, hpne]
    rw [hred, mem_broadcastToRoom_iff]
    simp [notExcluded_none_eq, connLive_drawingHistory]
  · intro hcur
    have hred : handleMsg s c cs (ClientMsg.drawStroke sid cp ct pts col w tl) now
        = (s, []) := by
      simp [handleMsg, handleDraw, hcur]
    exact hred


theorem pushStroke_eq (d : List Stroke) (st : Stroke) (h : d.length ≤ MAX_DRAWING_HISTORY) :
    pushStroke d st = (d ++ [st]).drop ((d ++ [st]).length - MAX_DRAWING_HISTORY) := by
  simp only [pushStroke]
  split
  · rfl
  · next hgt =>
    have : (d ++ [st]).length - MAX_DRAWING_HISTORY = 0 := by
      simp only [List.length_append, List.length_singleton, MAX_DRAWING_HISTORY] at *
      omega
    rw [this, List.drop_zero]

theorem pushStroke_length_le (d : List Stroke) (st : Stroke) :
    (pushStroke d st).length ≤ MAX_DRAWING_HISTORY := by
  simp only [pushStroke]
  split
  · next hgt =>
    simp only [List.length_drop, MAX_DRAWING_HISTORY] at *
    omega
  · next hle =>
    simp only [not_lt] at hle
    exact hle

set_option maxRecDepth 2000 in
theorem foldl_pushStroke_general (l : List Stroke) :
    ∀ d : List Stroke, d.length ≤ MAX_DRAWING_HISTORY →
      List.foldl pushStroke d l = (d ++ l).drop ((d ++ l).length - MAX_DRAWING_HISTORY) := by
  induction l with
  | nil =>
    intro d h
    simp only [List.foldl_nil, List.append_nil]
    have : d.length - MAX_DRAWING_HISTORY = 0 := by
      simp only [MAX_DRAWING_HISTORY] at *
      omega
    rw [this, List.drop_zero]
  | cons a l ih =>
    intro d h
    rw [List.foldl_cons, ih _ (pushStroke_length_le d a), pushStroke_eq d a h]
    have hj : (d ++ [a]).length - MAX_DRAWING_HISTORY ≤ (d ++ [a]).length := by
      omega
    rw [List.drop_append_of_le_length hj |>.symm]
    rw [List.drop_drop]
    have hassoc : (d ++ [a]) ++ l = d ++ a :: l := by simp
    rw [hassoc]
    congr 1
    simp only [List.length_drop, List.length_append, List.length_cons,
      List.length_singleton, List.length_nil, MAX_DRAWING_HISTORY] at *
    omega

theorem foldl_pushStroke (l : List Stroke) :
    List.foldl pushStroke [] l = l.drop (l.length - MAX_DRAWING_HISTORY) := by
  have := foldl_pushStroke_general l [] (by simp [MAX_DRAWING_HISTORY])
  simpa using this


theorem joinLeaveOld_outs (s : ServerState) (cs : ConnState) (pid : String)
    (roomId : Nat) : ∀ d m, (d, m) ∈ (joinLeaveOld s cs pid roomId).2 →
      ∃ q r, m = SMsg.userLeft q r := by
  intro d m hm
  unfold joinLeaveOld at hm
  split at hm
  · split at hm
    · split at hm
      · split at hm
        · rcases (mem_broadcastToRoom_iff.mp hm) with ⟨hmsg, -⟩
          exact ⟨_, _, hmsg⟩
        · simp at hm
      · simp at hm
    · simp at hm
  · simp at hm

theorem joinLeaveOld_state (s : ServerState) (cs : ConnState) (pid : String)
    (roomId : Nat) :
    (joinLeaveOld s cs pid roomId).1.conns = s.conns ∧
    (joinLeaveOld s cs pid roomId).1.drawingHistory = s.drawingHistory ∧
    alGet (joinLeaveOld s cs pid roomId).1.rooms roomId = alGet s.rooms roomId := by
  unfold joinLeaveOld
  split
  · next cr heq =>
    split
    · next hne =>
      split
      · split
        · exact ⟨rfl, rfl, alGet_alUpdate_ne _ _ _ _ (fun h => hne h.symm)⟩
        · exact ⟨rfl, rfl, rfl⟩
      · exact ⟨rfl, rfl, rfl⟩
    · exact ⟨rfl, rfl, rfl⟩
  · exact ⟨rfl, rfl, rfl⟩

theorem handleJoin_room4_replay (s : ServerState) (c : Nat) (cs : ConnState)
    (pid : String) (now : Nat) (rm4 : RoomMap)
    (hr4 : alGet s.rooms 4 = some rm4) :
    ((∃ strokes, (c, SMsg.drawingHistory strokes) ∈ (handleJoin s c cs pid 4 now).2)
        ↔ s.drawingHistory ≠ []) ∧
    (∀ strokes, (c, SMsg.drawingHistory strokes) ∈ (handleJoin s c cs pid 4 now).2 →
        strokes = s.drawingHistory) := by
  obtain ⟨hconns, hdh, hrooms⟩ := joinLeaveOld_state s cs pid 4
  have hleft := joinLeaveOld_outs s cs pid 4
  simp only [handleJoin, hrooms.trans hr4, hdh, eq_self_iff_true, true_and, ne_eq]
  constructor
  · constructor
    · rintro ⟨strokes, hm⟩
      rcases List.mem_append.mp hm with hm | hm
      · rcases List.mem_append.mp hm with hm | hm
        · obtain ⟨q, r0, hq⟩ := hleft _ _ hm
          exact absurd hq (by simp)
        · rcases List.mem_append.mp hm with hm | hm
          · rcases List.mem_append.mp hm with hm | hm
            · split at hm
              · simp at hm
              · rcases mem_broadcastToRoom_iff.mp hm with ⟨hmsg, -⟩
                exact absurd hmsg (by simp)
            · have hmm := congrArg Prod.snd (List.mem_singleton.mp hm)
              exact absurd hmm (by simp)
          · split at hm
            · next hcond => exact hcond
            · simp at hm
      · have hmm := broadcastPresence_msg hm
        exact absurd hmm (by simp)
    · intro hne
      exact ⟨s.drawingHistory, List.mem_append.mpr (Or.inl (List.mem_append.mpr
        (Or.inr (List.mem_append.mpr (Or.inr (by simp [hne]))))))⟩
  · intro strokes hm
    rcases List.mem_append.mp hm with hm | hm
    · rcases List.mem_append.mp hm with hm | hm
      · obtain ⟨q, r0, hq⟩ := hleft _ _ hm
        exact absurd hq (by simp)
      · rcases List.mem_append.mp hm with hm | hm
        · rcases List.mem_append.mp hm with hm | hm
          · split at hm
            · simp at hm
            · rcases mem_broadcastToRoom_iff.mp hm with ⟨hmsg, -⟩
              exact absurd hmsg (by simp)
          · have hmm := congrArg Prod.snd (List.mem_singleton.mp hm)
            exact absurd hmm (by simp)
        · split at hm
          · have hmm := congrArg Prod.snd (List.mem_singleton.mp hm)
            exact SMsg.drawingHistory.inj hmm
          · simp at hm
    · have hmm := broadcastPresence_msg hm
      exact absurd hmm (by simp)


/-- C2: a `join` for the room the connection is already recorded in, with the
ID already present in that room's map, broadcasts no `user_joined` and no
`user_left`, and still replies to the joiner with a `room_users` list of
exactly the room's current members minus the joiner. -/
theorem C2_rejoin_same_room (s : ServerState) (c : Nat) (cs : ConnState)
    (pid : String) (r : Nat) (rm : RoomMap) (now : Nat)
    (hconn : alGet s.conns c = some cs) (hlive : cs.live = true)
    (hcur : cs.currentRoom = some r) (hroom : alGet s.rooms r = some rm)
    (hmem : alHas rm pid = true) :
    (∀ d m, (d, m) ∈ (serverStep s (SEvent.msg c (ClientMsg.join pid r) now)).2 →
       (∀ q rid, m ≠ SMsg.userJoined q rid) ∧ (∀ q rid, m ≠ SMsg.userLeft q rid)) ∧
    (c, SMsg.roomUsers r ((rm.map Prod.fst).filter (· ≠ pid))) ∈
      (serverStep s (SEvent.msg c (ClientMsg.join pid r) now)).2 := by
  rw [serverStep_msg_live hconn hlive]
  have hred : handleMsg s c cs (ClientMsg.join pid r) now
      = (handleJoin s c cs pid r now) := rfl
  rw [hred]
  unfold handleJoin
  have hjlo : joinLeaveOld s cs pid r = (s, []) := by
    simp [joinLeaveOld, hcur]
  simp only [hjlo, hcur, hroom, hmem, eq_self_iff_true, ne_eq, not_true_eq_false,
    if_false, if_true, and_self, true_and, List.nil_append]
  have husers : ((alGet (alUpdate s.rooms r fun x => alSet x pid ⟨c, now⟩) r).getD
      []).map Prod.fst = rm.map Prod.fst := by
    rw [alGet_alUpdate_self, hroom]
    simp [alSet_keys_of_has _ hmem]
  rw [husers]
  constructor
  · intro d m hm
    rcases List.mem_append.mp hm with hm | hm
    · rcases List.mem_append.mp hm with hm | hm
      · have hmm := congrArg Prod.snd (List.mem_singleton.mp hm)
        subst hmm
        simp
      · split at hm
        · have hmm := congrArg Prod.snd (List.mem_singleton.mp hm)
          subst hmm
          simp
        · simp at hm
    · have hmm := broadcastPresence_msg hm
      simp [hmm]
  · apply List.mem_append.mpr
    left
    apply List.mem_append.mpr
    left
    exact List.mem_singleton.mpr rfl

/-- C6: an `rtc_offer` / `rtc_answer` / `rtc_ice_candidate` from a live
connection changes no server state, and its payload is delivered (to exactly
one socket, with `fromId` set to the sender's ID and the payload field
unchanged) iff the sender has a current room and a truthy ID, a `targetId`
is supplied, and the target is a member of the sender's current room with a
live socket; otherwise nothing is sent and no error is returned. -/
theorem C6_targeted_relay (s : ServerState) (c : Nat) (cs : ConnState)
    (tid : Option String) (off ans cand : String) (now : Nat)
    (hconn : alGet s.conns c = some cs) (hlive : cs.live = true) :
    ((serverStep s (SEvent.msg c (ClientMsg.rtcOffer tid off) now)).1 = s ∧
     ∀ d m, (d, m) ∈ (serverStep s (SEvent.msg c (ClientMsg.rtcOffer tid off) now)).2 ↔
       ∃ cr p t rm e, cs.currentRoom = some cr ∧ cs.participantId = some p ∧ p ≠ "" ∧
         tid = some t ∧ t ≠ "" ∧ alGet s.rooms cr = some rm ∧ alGet rm t = some e ∧
         connLive s e.ws = true ∧ d = e.ws ∧ m = SMsg.rtcOffer p off) ∧
    ((serverStep s (SEvent.msg c (ClientMsg.rtcAnswer tid ans) now)).1 = s ∧
     ∀ d m, (d, m) ∈ (serverStep s (SEvent.msg c (ClientMsg.rtcAnswer tid ans) now)).2 ↔
       ∃ cr p t rm e, cs.currentRoom = some cr ∧ cs.participantId = some p ∧ p ≠ "" ∧
         tid = some t ∧ t ≠ "" ∧ alGet s.rooms cr = some rm ∧ alGet rm t = some e ∧
         connLive s e.ws = true ∧ d = e.ws ∧ m = SMsg.rtcAnswer p ans) ∧
    ((serverStep s (SEvent.msg c (ClientMsg.rtcIceCandidate tid cand) now)).1 = s ∧
     ∀ d m, (d, m) ∈ (serverStep s (SEvent.msg c (ClientMsg.rtcIceCandidate tid cand) now)).2 ↔
       ∃ cr p t rm e, cs.currentRoom = some cr ∧ cs.participantId = some p ∧ p ≠ "" ∧
         tid = some t ∧ t ≠ "" ∧ alGet s.rooms cr = some rm ∧ alGet rm t = some e ∧
         connLive s e.ws = true ∧ d = e.ws ∧ m = SMsg.rtcIceCandidate p cand) := by
  have h1 : handleMsg s c cs (ClientMsg.rtcOffer tid off) now
      = (s, handleRtc s cs tid (fun fromId => SMsg.rtcOffer fromId off)) := rfl
  have h2 : handleMsg s c cs (ClientMsg.rtcAnswer tid ans) now
      = (s, handleRtc s cs tid (fun fromId => SMsg.rtcAnswer fromId ans)) := rfl
  have h3 : handleMsg s c cs (ClientMsg.rtcIceCandidate tid cand) now
      = (s, handleRtc s cs tid (fun fromId => SMsg.rtcIceCandidate fromId cand)) := rfl
  refine ⟨⟨?_, ?_⟩, ⟨?_, ?_⟩, ⟨?_, ?_⟩⟩
  · rw [serverStep_msg_live hconn hlive, h1]
  · rw [serverStep_msg_live hconn hlive, h1]
    exact fun d m => handleRtc_chars s cs tid (fun fromId => SMsg.rtcOffer fromId off) d m
  · rw [serverStep_msg_live hconn hlive, h2]
  · rw [serverStep_msg_live hconn hlive, h2]
    exact fun d m => handleRtc_chars s cs tid (fun fromId => SMsg.rtcAnswer fromId ans) d m
  · rw [serverStep_msg_live hconn hlive, h3]
  · rw [serverStep_msg_live hconn hlive, h3]
    exact fun d m => handleRtc_chars s cs tid (fun fromId => SMsg.rtcIceCandidate fromId cand) d m

/-- C3: an `rtc_offer` arriving before the local stream is ready is appended
to the pending-offers queue with no other effect; when the stream becomes
ready, both pending queues are emptied, every queued offer is processed
exactly once producing exactly one `rtc_answer` to its offerer (in queue
order), no queued user is offered to twice, and a second drain (the queues
now being empty) produces no further answer. -/
theorem C3_pending_offers_drained_once (s : ClientState) (f : String) (o : String)
    (hnotready : s.streamReady = false) :
    (clientStep s (CEvent.rtcOffer f o) =
       ({ s with pendingOffers := s.pendingOffers ++ [(f, o)] }, [])) ∧
    ((clientStep s CEvent.streamReady).1.pendingOffers = [] ∧
     (clientStep s CEvent.streamReady).1.pendingUsers = [] ∧
     (clientStep s CEvent.streamReady).2.filter isAnswerAct
        = s.pendingOffers.map (fun fo => CAction.sendAnswer fo.1) ∧
     (∀ u, ((clientStep s CEvent.streamReady).2.filter
            (fun a => decide (a = CAction.sendOffer u))).length ≤ 1) ∧
     (clientStep (clientStep s CEvent.streamReady).1 CEvent.streamReady).2.filter
        isAnswerAct = []) := by
  constructor
  · simp [clientStep, onRtcOffer, hnotready]
  · have hdrain : ∀ s' : ClientState,
        (clientStep s' CEvent.streamReady).1.pendingOffers = [] ∧
        (clientStep s' CEvent.streamReady).1.pendingUsers = [] ∧
        (clientStep s' CEvent.streamReady).2.filter isAnswerAct
          = s'.pendingOffers.map (fun fo => CAction.sendAnswer fo.1) ∧
        (∀ u, ((clientStep s' CEvent.streamReady).2.filter
            (fun a => decide (a = CAction.sendOffer u))).length ≤ 1) := by
      intro s'
      simp only [clientStep, onStreamReady]
      set s0 : ClientState := { s' with streamReady := true } with hs0
      set r1 := drainUsersGo { s0 with pendingUsers := [] } s0.pendingUsers with hr1
      have hfields1 := drainUsersGo_fields s0.pendingUsers { s0 with pendingUsers := [] }
      set r2 := drainOffersGo { r1.1 with pendingOffers := [] } r1.1.pendingOffers with hr2
      have hfields2 := drainOffersGo_fields r1.1.pendingOffers { r1.1 with pendingOffers := [] }
      refine ⟨?_, ?_, ?_, ?_⟩
      · exact hfields2.2
      · have : r2.1.pendingUsers = r1.1.pendingUsers := hfields2.1
        rw [this, hfields1.1]
      · rw [List.filter_append, drainUsersGo_no_answers, List.nil_append,
          drainOffersGo_answers]
        have : r1.1.pendingOffers = s0.pendingOffers := hfields1.2
        rw [this]
      · intro u
        rw [List.filter_append, List.length_append]
        have h2 : (r2.2.filter (fun a => decide (a = CAction.sendOffer u))) = [] :=
          List.filter_eq_nil_iff.mpr (fun a ha => by
            simpa using drainOffersGo_no_offers r1.1.pendingOffers _ u a ha)
        rw [h2]
        simpa using drainUsersGo_offer_count s0.pendingUsers _ u

    refine ⟨(hdrain s).1, (hdrain s).2.1, (hdrain s).2.2.1, (hdrain s).2.2.2, ?_⟩
    rw [(hdrain (clientStep s CEvent.streamReady).1).2.2.1, (hdrain s).1]
    simp

/-- Witness for C3 at a concrete state: two offers queued before the stream
is ready, then drained. -/
theorem C3_witness :
    ((⟨"A", false, [], [], [("B", "o1")], []⟩ : ClientState).streamReady = false) ∧
    (clientStep (⟨"A", false, [], [], [("B", "o1")], []⟩ : ClientState)
        (CEvent.rtcOffer "C" "o2") =
      (⟨"A", false, [], [], [("B", "o1"), ("C", "o2")], []⟩, [])) ∧
    (clientStep (⟨"A", false, [], [], [("B", "o1")], []⟩ : ClientState)
        CEvent.streamReady).2.filter isAnswerAct = [CAction.sendAnswer "B"] := by
  refine ⟨rfl, ?_, ?_⟩
  · have h := C3_pending_offers_drained_once
      (⟨"A", false, [], [], [("B", "o1")], []⟩ : ClientState) "C" "o2" rfl
    exact h.1
  · have h := C3_pending_offers_drained_once
      (⟨"A", false, [], [], [("B", "o1")], []⟩ : ClientState) "C" "o2" rfl
    exact h.2.2.2.1

/-- C4: an offer for a peer with an existing PeerLink closes and discards the
old connection, installs a fresh one, and answers; with or without an
existing link the final table has exactly one entry for that peer.  The
concrete glare trace (both sides offered: we already sent an offer to "B",
then "B"'s offer arrives) ends with exactly one PeerLink for "B". -/
theorem C4_last_offer_wins (s : ClientState) (f : String) (o : String)
    (hready : s.streamReady = true) :
    (∀ pc, alGet s.peers f = some pc →
       clientStep s (CEvent.rtcOffer f o) =
         ({ s with peers := alRemove s.peers f ++ [(f, newPC)] },
          [CAction.closePC f, CAction.sendAnswer f])) ∧
    (alGet s.peers f = none →
       clientStep s (CEvent.rtcOffer f o) =
         ({ s with peers := s.peers ++ [(f, newPC)] }, [CAction.sendAnswer f])) ∧
    countKey (clientStep s (CEvent.rtcOffer f o)).1.peers f = 1 ∧
    alGet (clientStep s (CEvent.rtcOffer f o)).1.peers f = some newPC ∧
    countKey (clientStep
        (clientStep (⟨"A", true, [], [], [], []⟩ : ClientState)
          (CEvent.userJoined "B")).1
        (CEvent.rtcOffer "B" "oB")).1.peers "B" = 1 := by
  have hstep : clientStep s (CEvent.rtcOffer f o) = handleOffer s f := by
    simp [clientStep, onRtcOffer, hready]
  refine ⟨?_, ?_, ?_, ?_, ?_⟩
  · intro pc hpc
    have hhas : alHas s.peers f = true := by simp [alHas, hpc]
    rw [hstep]
    simp [handleOffer, hhas]
  · intro hpc
    have hhas : alHas s.peers f = false := by simp [alHas, hpc]
    rw [hstep]
    simp [handleOffer, hhas]
  · rw [hstep]
    unfold handleOffer
    by_cases hhas : alHas s.peers f = true
    · simp only [hhas, if_true]
      rw [countKey_append, countKey_alRemove]
      simp [countKey]
    · simp only [Bool.not_eq_true] at hhas
      simp only [hhas, Bool.false_eq_true, if_false]
      rw [countKey_append, countKey_of_alGet_none (by simpa [alHas] using hhas)]
      simp [countKey]
  · rw [hstep]
    unfold handleOffer
    by_cases hhas : alHas s.peers f = true
    · simp only [hhas, if_true]
      exact alGet_append_single_of_none (alGet_alRemove_self s.peers f) newPC
    · simp only [Bool.not_eq_true] at hhas
      simp only [hhas, Bool.false_eq_true, if_false]
      exact alGet_append_single_of_none (by simpa [alHas] using hhas) newPC
  · decide

/-- Witness for C4 at a concrete state with an existing PeerLink for "B". -/
theorem C4_witness :
    ((⟨"A", true, [("B", newPC)], [], [], []⟩ : ClientState).streamReady = true) ∧
    clientStep (⟨"A", true, [("B", newPC)], [], [], []⟩ : ClientState)
        (CEvent.rtcOffer "B" "oB") =
      (⟨"A", true, [("B", newPC)], [], [], []⟩, [CAction.closePC "B", CAction.sendAnswer "B"]) ∧
    countKey (clientStep (⟨"A", true, [("B", newPC)], [], [], []⟩ : ClientState)
        (CEvent.rtcOffer "B" "oB")).1.peers "B" = 1 := by
  have h := C4_last_offer_wins (⟨"A", true, [("B", newPC)], [], [], []⟩ : ClientState)
    "B" "oB" rfl
  refine ⟨rfl, ?_, h.2.2.1⟩
  have h1 := h.1 newPC (by decide)
  rw [h1]
  decide

/-- C5: on a transport report of `failed` (resp. `disconnected`) for a known
peer, the orchestrator restarts ICE in place and arms a 20000 ms (resp.
30000 ms) timer guarded by that same state; a `connected` report cancels the
pending timer and keeps the same PeerLink entry (no close, no recreation);
a timer firing while the link still shows the guarded state closes the
connection and removes it from the peer table, while a firing whose guard no
longer matches leaves the peer untouched. -/
theorem C5_recovery_timer (s : ClientState) (p : String) (pc : PC)
    (hp : alGet s.peers p = some pc) :
    (clientStep s (CEvent.connChange p PCConnState.failed) =
       ({ s with peers := alSet s.peers p { pc with connectionState := PCConnState.failed },
                 timers := alSet s.timers p ⟨20000, PCConnState.failed⟩ },
        [CAction.restartIce p])) ∧
    (clientStep s (CEvent.connChange p PCConnState.disconnected) =
       ({ s with peers := alSet s.peers p { pc with connectionState := PCConnState.disconnected },
                 timers := alSet s.timers p ⟨30000, PCConnState.disconnected⟩ },
        [CAction.restartIce p])) ∧
    (clientStep s (CEvent.connChange p PCConnState.connected) =
       ({ s with peers := alSet s.peers p { pc with connectionState := PCConnState.connected },
                 timers := alRemove s.timers p }, [])) ∧
    (∀ t, alGet s.timers p = some t → pc.connectionState = t.guard →
       clientStep s (CEvent.timerFire p) =
         ({ s with peers := alRemove s.peers p, timers := alRemove s.timers p },
          [CAction.closePC p])) ∧
    (∀ t, alGet s.timers p = some t → pc.connectionState ≠ t.guard →
       clientStep s (CEvent.timerFire p) =
         ({ s with timers := alRemove s.timers p }, [])) := by
  refine ⟨?_, ?_, ?_, ?_, ?_⟩
  · simp [clientStep, onConnChange, hp]
  · simp [clientStep, onConnChange, hp]
  · simp [clientStep, onConnChange, hp]
  · intro t ht hguard
    have hhas : alHas s.peers p = true := by simp [alHas, hp]
    simp [clientStep, onTimerFire, ht, hp, hguard, removePeer, hhas, alRemove_idem]
  · intro t ht hguard
    simp [clientStep, onTimerFire, ht, hp, hguard]

/-- Witness for C5 at a concrete state: peer "B" failed with its 20 s timer
armed; the report and the expiry behave as stated. -/
theorem C5_witness :
    (alGet (⟨"A", true, [("B", (⟨PCConnState.failed, ICEState.iceConnected⟩ : PC))], [], [],
        [("B", (⟨20000, PCConnState.failed⟩ : RTimer))]⟩ : ClientState).peers "B"
      = some ⟨PCConnState.failed, ICEState.iceConnected⟩) ∧
    clientStep (⟨"A", true, [("B", (⟨PCConnState.failed, ICEState.iceConnected⟩ : PC))], [], [],
        [("B", (⟨20000, PCConnState.failed⟩ : RTimer))]⟩ : ClientState)
      (CEvent.timerFire "B") =
      (⟨"A", true, [], [], [], []⟩, [CAction.closePC "B"]) ∧
    clientStep (⟨"A", true, [("B", (⟨PCConnState.failed, ICEState.iceConnected⟩ : PC))], [], [],
        [("B", (⟨20000, PCConnState.failed⟩ : RTimer))]⟩ : ClientState)
      (CEvent.connChange "B" PCConnState.connected) =
      (⟨"A", true, [("B", (⟨PCConnState.connected, ICEState.iceConnected⟩ : PC))], [], [], []⟩,
       []) := by
  have h := C5_recovery_timer
    (⟨"A", true, [("B", (⟨PCConnState.failed, ICEState.iceConnected⟩ : PC))], [], [],
        [("B", (⟨20000, PCConnState.failed⟩ : RTimer))]⟩ : ClientState)
    "B" ⟨PCConnState.failed, ICEState.iceConnected⟩ (by decide)
  refine ⟨by decide, ?_, ?_⟩
  · have h4 := h.2.2.2.1 ⟨20000, PCConnState.failed⟩ (by decide) (by decide)
    rw [h4]
    decide
  · have h3 := h.2.2.1
    rw [h3]
    decide


/-- Witness for C2 at a concrete state: "p" rejoins room 1 where it is
already recorded. -/
theorem C2_witness :
    (∀ d m, (d, m) ∈ (serverStep sW (SEvent.msg 0 (ClientMsg.join "p" 1) 5)).2 →
       (∀ q rid, m ≠ SMsg.userJoined q rid) ∧ (∀ q rid, m ≠ SMsg.userLeft q rid)) ∧
    (0, SMsg.roomUsers 1 ((rmW.map Prod.fst).filter (· ≠ "p"))) ∈
      (serverStep sW (SEvent.msg 0 (ClientMsg.join "p" 1) 5)).2 :=
  C2_rejoin_same_room sW 0 csW "p" 1 rmW 5 (by decide) (by decide) (by decide)
    (by decide) (by decide)

/-- Witness for C6 at a concrete state: "p" sends an offer to room-mate "b";
the payload reaches exactly socket 1 with `fromId` substituted, and the
server state is unchanged. -/
theorem C6_witness :
    (serverStep sW (SEvent.msg 0 (ClientMsg.rtcOffer (some "b") "SDP") 6)).1 = sW ∧
    (1, SMsg.rtcOffer "p" "SDP") ∈
      (serverStep sW (SEvent.msg 0 (ClientMsg.rtcOffer (some "b") "SDP") 6)).2 := by
  have h := C6_targeted_relay sW 0 csW (some "b") "SDP" "a" "c" 6 (by decide) (by decide)
  refine ⟨h.1.1, ?_⟩
  exact (h.1.2 1 (SMsg.rtcOffer "p" "SDP")).mpr
    ⟨1, "p", "b", rmW, ⟨1, 0⟩, rfl, rfl, by decide, rfl, by decide, by decide,
     by decide, by decide, rfl, rfl⟩

/-- Witness for C7 at a concrete state: a chat from "p" in room 3 reaches
"b"'s socket but not the sender's own socket, and a `draw_stroke` from the
same sender (whose room is not the drawing room) is a silent no-op. -/
theorem C7_witness :
    (1, SMsg.chatMessage "p" "m1" "hi" 9) ∈
      (serverStep sW3 (SEvent.msg 0 (ClientMsg.chat "m1" "hi") 9)).2 ∧
    (0, SMsg.chatMessage "p" "m1" "hi" 9) ∉
      (serverStep sW3 (SEvent.msg 0 (ClientMsg.chat "m1" "hi") 9)).2 ∧
    serverStep sW3
        (SEvent.msg 0 (ClientMsg.drawStroke "s1" none none [] none none none) 9)
      = (sW3, []) := by
  have h := C7_room_scoped_broadcasts sW3 0 csW3 "p" "m1" "hi" "s1" [] none none none
    none none 9 (by decide) (by decide) (by decide) (by decide)
  have hiff := (h.1 (by decide)).2
  refine ⟨?_, ?_, ?_⟩
  · exact (hiff 1 (SMsg.chatMessage "p" "m1" "hi" 9)).mpr
      ⟨rfl, rmW, by decide, ("b", ⟨1, 0⟩), by decide, rfl, by decide, by decide⟩
  · intro hmem
    rcases (hiff 0 (SMsg.chatMessage "p" "m1" "hi" 9)).mp hmem with
      ⟨-, -, -, -, -, -, hne, -⟩
    exact hne rfl
  · exact h.2.2.2 (by decide)

/-- Concrete stroke used by witness states. -/
def stW : Stroke := ⟨"s0", "p", [(1, 2)], "#ffffff", 2, "pen", 0⟩

/-- Concrete connection state of socket 0 in the drawing-room witness state. -/
def csW4 : ConnState := ⟨some "p", some 4, true⟩

/-- Concrete drawing-room membership map. -/
def rmW4 : RoomMap := [("p", ⟨0, 0⟩)]

/-- Concrete server state: "p" in room 4 with one buffered stroke. -/
def sW4 : ServerState :=
  { rooms := [(1, []), (2, []), (3, []), (4, rmW4)],
    conns := [(0, csW4)],
    drawingHistory := [stW] }

/-- C8: starting from an empty buffer, a sequence of draw-stroke appends
leaves exactly the most recent `min(total, 100)` strokes in append order
(hence never more than 100); `clear_drawing` from a connection in the
drawing room empties the buffer; and a joiner of room 4 is sent
`drawing_history` iff the buffer is non-empty, with exactly the buffered
strokes. -/
theorem C8_stroke_history_buffer :
    (∀ l : List Stroke,
       List.foldl pushStroke [] l = l.drop (l.length - MAX_DRAWING_HISTORY) ∧
       (List.foldl pushStroke [] l).length ≤ MAX_DRAWING_HISTORY) ∧
    (∀ (s : ServerState) (c : Nat) (cs : ConnState) (now : Nat),
       alGet s.conns c = some cs → cs.live = true → cs.currentRoom = some 4 →
       (serverStep s (SEvent.msg c ClientMsg.clearDrawing now)).1.drawingHistory = []) ∧
    (∀ (s : ServerState) (c : Nat) (cs : ConnState) (pid : String) (now : Nat)
       (rm4 : RoomMap), alGet s.conns c = some cs → cs.live = true →
       alGet s.rooms 4 = some rm4 →
       ((∃ strokes, (c, SMsg.drawingHistory strokes) ∈
            (serverStep s (SEvent.msg c (ClientMsg.join pid 4) now)).2)
          ↔ s.drawingHistory ≠ []) ∧
       (∀ strokes, (c, SMsg.drawingHistory strokes) ∈
            (serverStep s (SEvent.msg c (ClientMsg.join pid 4) now)).2 →
          strokes = s.drawingHistory)) := by
  refine ⟨?_, ?_, ?_⟩
  · intro l
    refine ⟨foldl_pushStroke l, ?_⟩
    rw [foldl_pushStroke l]
    simp only [List.length_drop, MAX_DRAWING_HISTORY]
    omega
  · intro s c cs now hconn hlive hcur
    rw [serverStep_msg_live hconn hlive]
    simp [handleMsg, handleClear, hcur]
  · intro s c cs pid now rm4 hconn hlive hr4
    rw [serverStep_msg_live hconn hlive]
    have hred : handleMsg s c cs (ClientMsg.join pid 4) now
        = handleJoin s c cs pid 4 now := rfl
    rw [hred]
    exact handleJoin_room4_replay s c cs pid now rm4 hr4

/-- Witness for C8: a one-stroke fold, a concrete `clear_drawing`, and a
concrete join to room 4 with a non-empty buffer. -/
theorem C8_witness :
    (List.foldl pushStroke [] [stW]
        = [stW].drop ([stW].length - MAX_DRAWING_HISTORY) ∧
     (List.foldl pushStroke [] [stW]).length ≤ MAX_DRAWING_HISTORY) ∧
    (serverStep sW4 (SEvent.msg 0 ClientMsg.clearDrawing 9)).1.drawingHistory = [] ∧
    ((∃ strokes, (0, SMsg.drawingHistory strokes) ∈
        (serverStep sW4 (SEvent.msg 0 (ClientMsg.join "q" 4) 9)).2)
      ↔ sW4.drawingHistory ≠ []) ∧
    (∀ strokes, (0, SMsg.drawingHistory strokes) ∈
        (serverStep sW4 (SEvent.msg 0 (ClientMsg.join "q" 4) 9)).2 →
      strokes = sW4.drawingHistory) :=
  ⟨C8_stroke_history_buffer.1 [stW],
   C8_stroke_history_buffer.2.1 sW4 0 csW4 9 (by decide) (by decide) (by decide),
   (C8_stroke_history_buffer.2.2 sW4 0 csW4 "q" 9 rmW4 (by decide) (by decide)
      (by decide)).1,
   (C8_stroke_history_buffer.2.2 sW4 0 csW4 "q" 9 rmW4 (by decide) (by decide)
      (by decide)).2⟩

/-- Events leading to a state where connection 0 still records current room 1
but participant "p" is in no room's membership map (its `join` to unknown
room 7 removed it from room 1 without clearing `currentRoom`). -/
def cexC9Pre : List SEvent :=
  [SEvent.connect 0, SEvent.connect 1,
   SEvent.msg 1 (ClientMsg.join "q" 1) 0,
   SEvent.msg 0 (ClientMsg.join "p" 1) 1,
   SEvent.msg 0 (ClientMsg.join "p" 7) 2]

/-- C9 counterexample: after `cexC9Pre`, participant "p" appears in no
room's membership map, yet its `leave` still broadcasts `user_left` (here
received by socket 1) — so a leave from a participant absent from every
membership map is not a no-op, contradicting the claim as stated. -/
theorem C9_counterexample :
    (∀ pr ∈ (execServer initState cexC9Pre).rooms, alHas pr.2 "p" = false) ∧
    (1, SMsg.userLeft "p" 1) ∈
      (serverStep (execServer initState cexC9Pre) (SEvent.msg 0 ClientMsg.leave 3)).2 := by
  constructor
  · decide
  · decide

/-- C9 (amended): `leave` and socket close are driven by the connection's
recorded current room, not by membership-map presence.  A `leave` with no
recorded room is a no-op with no messages; a close with no recorded room
only marks the socket dead, leaving rooms, history and outputs untouched.
With a recorded room, both delete the participant from that room's map (a
no-op deletion if absent), broadcast `user_left` to the remaining live
members, and send refreshed presence to every live connection — whether or
not the participant was actually in the map; `leave` additionally clears
the connection's recorded room, while close leaves it set. -/
theorem C9_leave_characterization (s : ServerState) (c : Nat) (cs : ConnState) (now : Nat)
    (hconn : alGet s.conns c = some cs) (hlive : cs.live = true) :
    ((cs.currentRoom = none →
       serverStep s (SEvent.msg c ClientMsg.leave now) = (s, [])) ∧
     (∀ cr rm pid, cs.currentRoom = some cr → alGet s.rooms cr = some rm →
       cs.participantId = some pid → pid ≠ "" →
       ((serverStep s (SEvent.msg c ClientMsg.leave now)).1.rooms
           = alUpdate s.rooms cr (fun r => alRemove r pid)) ∧
       (alGet (serverStep s (SEvent.msg c ClientMsg.leave now)).1.conns c
           = some { cs with currentRoom := none }) ∧
       ((serverStep s (SEvent.msg c ClientMsg.leave now)).1.drawingHistory
           = s.drawingHistory) ∧
       (∀ q e, (q, e) ∈ rm → q ≠ pid → connLive s e.ws = true →
          (e.ws, SMsg.userLeft pid cr)
            ∈ (serverStep s (SEvent.msg c ClientMsg.leave now)).2) ∧
       (∀ cid ccs,
          alGet (serverStep s (SEvent.msg c ClientMsg.leave now)).1.conns cid = some ccs →
          ccs.live = true →
          (cid, SMsg.presence
              (getRoomCounts (serverStep s (SEvent.msg c ClientMsg.leave now)).1))
            ∈ (serverStep s (SEvent.msg c ClientMsg.leave now)).2))) ∧
    ((cs.currentRoom = none →
       ((serverStep s (SEvent.close c)).1.rooms = s.rooms) ∧
       ((serverStep s (SEvent.close c)).1.drawingHistory = s.drawingHistory) ∧
       (alGet (serverStep s (SEvent.close c)).1.conns c
           = some { cs with live := false }) ∧
       ((serverStep s (SEvent.close c)).2 = [])) ∧
     (∀ cr rm pid, cs.currentRoom = some cr → alGet s.rooms cr = some rm →
       cs.participantId = some pid → pid ≠ "" →
       ((serverStep s (SEvent.close c)).1.rooms
           = alUpdate s.rooms cr (fun r => alRemove r pid)) ∧
       (alGet (serverStep s (SEvent.close c)).1.conns c
           = some { cs with live := false }) ∧
       ((serverStep s (SEvent.close c)).1.drawingHistory = s.drawingHistory) ∧
       (∀ q e, (q, e) ∈ rm → q ≠ pid →
          connLive (serverStep s (SEvent.close c)).1 e.ws = true →
          (e.ws, SMsg.userLeft pid cr) ∈ (serverStep s (SEvent.close c)).2) ∧
       (∀ cid ccs,
          alGet (serverStep s (SEvent.close c)).1.conns cid = some ccs →
          ccs.live = true →
          (cid, SMsg.presence (getRoomCounts (serverStep s (SEvent.close c)).1))
            ∈ (serverStep s (SEvent.close c)).2))) := by
  have hstepc : serverStep s (SEvent.close c) = handleClose s c cs := by
    simp [serverStep, hconn, hlive]
  constructor
  · rw [serverStep_msg_live hconn hlive]
    have hred : handleMsg s c cs ClientMsg.leave now = handleLeave s c cs := rfl
    rw [hred]
    constructor
    · intro hcur
      simp [handleLeave, hcur]
    · intro cr rm pid hcur hroom hpid hpne
      have hpt2 : optStrTruthy (some pid) = true := by simp [optStrTruthy, hpne]
      unfold handleLeave
      refine ⟨?_, ?_, ?_, ?_, ?_⟩
      · simp only [hcur, hroom, hpid, Option.getD_some, hpt2, if_true]
      · simp only [hcur, hroom, hpid, Option.getD_some, hpt2, if_true]
        exact alGet_alSet_self _ _ _
      · simp only [hcur, hroom, hpid, Option.getD_some, hpt2, if_true]
      · intro q e hq hqne hlv
        simp only [hcur, hroom, hpid, Option.getD_some, hpt2, if_true]
        apply List.mem_append.mpr
        left
        apply mem_broadcastToRoom_iff.mpr
        refine ⟨rfl, alRemove rm pid, ?_, (q, e), mem_alRemove_of_mem hq hqne, rfl, rfl, hlv⟩
        exact (alGet_alUpdate_self s.rooms cr _).trans (by rw [hroom]; rfl)
      · intro cid ccs hcid hclive
        simp only [hcur, hroom, hpid, Option.getD_some, hpt2, if_true] at hcid ⊢
        apply List.mem_append.mpr
        right
        exact broadcastPresence_mem hcid hclive
  · rw [hstepc]
    constructor
    · intro hcur
      simp [handleClose, hcur, alGet_alSet_self]
    · intro cr rm pid hcur hroom hpid hpne
      have hpt2 : optStrTruthy (some pid) = true := by simp [optStrTruthy, hpne]
      refine ⟨?_, ?_, ?_, ?_, ?_⟩
      · simp only [handleClose, hcur, hroom, hpid, Option.getD_some, hpt2, if_true]
      · simp only [handleClose, hcur, hroom, hpid, Option.getD_some, hpt2, if_true]
        exact alGet_alSet_self _ _ _
      · simp only [handleClose, hcur, hroom, hpid, Option.getD_some, hpt2, if_true]
      · intro q e hq hqne hlv
        simp only [handleClose, hcur, hroom, hpid, Option.getD_some, hpt2, if_true] at hlv ⊢
        apply List.mem_append.mpr
        left
        apply mem_broadcastToRoom_iff.mpr
        refine ⟨rfl, alRemove rm pid, ?_, (q, e), mem_alRemove_of_mem hq hqne, rfl, rfl, hlv⟩
        exact (alGet_alUpdate_self s.rooms cr _).trans (by rw [hroom]; rfl)
      · intro cid ccs hcid hclive
        simp only [handleClose, hcur, hroom, hpid, Option.getD_some, hpt2, if_true] at hcid ⊢
        apply List.mem_append.mpr
        right
        exact broadcastPresence_mem hcid hclive

/-- Witness for C9 at a concrete state: "p" (socket 0) leaves room 1 by a
`leave` message and, separately, by socket close; in both cases the
membership map loses "p" and room-mate "b" (socket 1) receives
`user_left`. -/
theorem C9_witness :
    (((serverStep sW (SEvent.msg 0 ClientMsg.leave 7)).1.rooms
        = alUpdate sW.rooms 1 (fun r => alRemove r "p")) ∧
     (1, SMsg.userLeft "p" 1) ∈ (serverStep sW (SEvent.msg 0 ClientMsg.leave 7)).2) ∧
    (((serverStep sW (SEvent.close 0)).1.rooms
        = alUpdate sW.rooms 1 (fun r => alRemove r "p")) ∧
     (1, SMsg.userLeft "p" 1) ∈ (serverStep sW (SEvent.close 0)).2) := by
  have h := C9_leave_characterization sW 0 csW 7 (by decide) (by decide)
  refine ⟨⟨?_, ?_⟩, ?_, ?_⟩
  · exact (h.1.2 1 rmW "p" (by decide) (by decide) (by decide) (by decide)).1
  · exact (h.1.2 1 rmW "p" (by decide) (by decide) (by decide) (by decide)).2.2.2.1
      "b" ⟨1, 0⟩ (by decide) (by decide) (by decide)
  · exact (h.2.2 1 rmW "p" (by decide) (by decide) (by decide) (by decide)).1
  · exact (h.2.2 1 rmW "p" (by decide) (by decide) (by decide) (by decide)).2.2.2.1
      "b" ⟨1, 0⟩ (by decide) (by decide) (by decide)

/-- C10: for an accepted `draw_stroke`, the stroke buffered and broadcast
carries the sender's joined identity and the server-assigned timestamp,
regardless of the `participantId`/`timestamp` values the client payload may
carry (`cp`/`ct` are arbitrary and ignored); a payload missing `color`,
`width` or `tool` yields `"#ffffff"`, `2` and `"pen"` respectively. -/
theorem C10_stroke_server_authority (s : ServerState) (c : Nat) (cs : ConnState) (p sid : String)
    (cp : Option String) (ct : Option Nat) (pts : List Point) (col : Option String)
    (w : Option Nat) (tl : Option String) (now : Nat)
    (hconn : alGet s.conns c = some cs) (hlive : cs.live = true)
    (hcur : cs.currentRoom = some 4) (hpid : cs.participantId = some p)
    (hpne : p ≠ "") :
    ∃ st : Stroke,
      (serverStep s (SEvent.msg c (ClientMsg.drawStroke sid cp ct pts col w tl) now)).1
        = { s with drawingHistory := pushStroke s.drawingHistory st } ∧
      st.participantId = p ∧ st.timestamp = now ∧ st.id = sid ∧ st.points = pts ∧
      (col = none → st.color = "#ffffff") ∧ (w = none → st.width = 2) ∧
      (tl = none → st.tool = "pen") ∧
      (∀ d m, (d, m) ∈
          (serverStep s (SEvent.msg c (ClientMsg.drawStroke sid cp ct pts col w tl) now)).2 →
        m = SMsg.drawStroke st) := by
  rw [serverStep_msg_live hconn hlive]
  have hpt : optStrTruthy cs.participantId = true := (optStrTruthy_iff _).mpr ⟨p, hpid, hpne⟩
  have hred : (handleMsg s c cs (ClientMsg.drawStroke sid cp ct pts col w tl) now)
      = ({ s with drawingHistory := pushStroke s.drawingHistory (⟨sid, p, pts, jsOrStr col "#ffffff", jsOrNat w 2, jsOrStr tl "pen", now⟩ : Stroke) }, broadcastToRoom { s with drawingHistory := pushStroke s.drawingHistory (⟨sid, p, pts, jsOrStr col "#ffffff", jsOrNat w 2, jsOrStr tl "pen", now⟩ : Stroke) } 4 (SMsg.drawStroke (⟨sid, p, pts, jsOrStr col "#ffffff", jsOrNat w 2, jsOrStr tl "pen", now⟩ : Stroke)) none) := by
    simp [handleMsg, handleDraw, hcur, hpt, hpid, optStrTruthy, hpne]
  rw [hred]
  refine ⟨(⟨sid, p, pts, jsOrStr col "#ffffff", jsOrNat w 2, jsOrStr tl "pen", now⟩ : Stroke), rfl, rfl, rfl, rfl, rfl, ?_, ?_, ?_, ?_⟩
  · intro h
    simp [h, jsOrStr]
  · intro h
    simp [h, jsOrNat]
  · intro h
    simp [h, jsOrStr]
  · intro d m hm
    exact (mem_broadcastToRoom_iff.mp hm).1

/-- Witness for C10 at a concrete state: a payload claiming a forged
`participantId` and `timestamp` and omitting color/width/tool is buffered
with the sender's identity, the server's clock, and the defaults. -/
theorem C10_witness :
    ∃ st : Stroke,
      (serverStep sW4 (SEvent.msg 0
          (ClientMsg.drawStroke "s9" (some "forged") (some 123) [(3, 4)] none none none) 77)).1
        = { sW4 with drawingHistory := pushStroke sW4.drawingHistory st } ∧
      st.participantId = "p" ∧ st.timestamp = 77 ∧ st.id = "s9" ∧ st.points = [(3, 4)] ∧
      ((none : Option String) = none → st.color = "#ffffff") ∧
      ((none : Option Nat) = none → st.width = 2) ∧
      ((none : Option String) = none → st.tool = "pen") ∧
      (∀ d m, (d, m) ∈
          (serverStep sW4 (SEvent.msg 0
            (ClientMsg.drawStroke "s9" (some "forged") (some 123) [(3, 4)] none none none) 77)).2 →
        m = SMsg.drawStroke st) :=
  C10_stroke_server_authority sW4 0 csW4 "p" "s9" (some "forged") (some 123) [(3, 4)]
    none none none 77 (by decide) (by decide) (by decide) (by decide) (by decide)

theorem alGet_append_single (m : List (κ × α)) (k k' : κ) (v : α) [DecidableEq κ] :
    alGet (m ++ [(k, v)]) k' = match alGet m k' with
      | some x => some x
      | none => if k = k' then some v else none := by
  induction m with
  | nil => simp [alGet]
  | cons hd tl ih =>
    obtain ⟨k0, v0⟩ := hd
    by_cases h0 : k0 = k'
    · simp [alGet, h0]
    · simp [alGet, h0, ih]

theorem alUpdate_keys (m : List (κ × α)) (k : κ) (f : α → α) [DecidableEq κ] :
    (alUpdate m k f).map Prod.fst = m.map Prod.fst := by
  induction m with
  | nil => simp [alUpdate]
  | cons hd tl ih =>
    obtain ⟨k0, v0⟩ := hd
    by_cases h0 : k0 = k
    · simp [alUpdate, h0, ih]
    · simp [alUpdate, h0, ih]

theorem alGet_of_mem_nodup [DecidableEq κ] {m : List (κ × α)} {k : κ} {v : α}
    (hnd : (m.map Prod.fst).Nodup) (h : (k, v) ∈ m) : alGet m k = some v := by
  induction m with
  | nil => simp at h
  | cons hd tl ih =>
    obtain ⟨k0, v0⟩ := hd
    simp only [List.map_cons, List.nodup_cons] at hnd
    rcases List.mem_cons.mp h with heq | hmem
    · have hk : k0 = k := (congrArg Prod.fst heq).symm
      have hv : v0 = v := (congrArg Prod.snd heq).symm
      simp [alGet, hk, hv]
    · by_cases h0 : k0 = k
      · exfalso
        apply hnd.1
        rw [h0]
        exact List.mem_map_of_mem Prod.fst hmem
      · simp only [alGet, if_neg h0]
        exact ih hnd.2 hmem

theorem alHas_of_mem [DecidableEq κ] {m : List (κ × α)} {k : κ} {v : α}
    (h : (k, v) ∈ m) : alHas m k = true := by
  cases hg : alGet m k with
  | none => exact absurd h (alGet_none_not_mem hg v)
  | some x => simp [alHas, hg]

theorem joinLeaveOld_mem_rooms (s : ServerState) (cs : ConnState) (pid : String)
    (roomId : Nat) : ∀ r rm' q e, (r, rm') ∈ (joinLeaveOld s cs pid roomId).1.rooms →
      (q, e) ∈ rm' → ∃ rm0, (r, rm0) ∈ s.rooms ∧ (q, e) ∈ rm0 := by
  intro r rm' q e hr hq
  unfold joinLeaveOld at hr
  split at hr
  · split at hr
    · split at hr
      · split at hr
        · simp only at hr
          rcases mem_alUpdate hr with ⟨hin, -⟩ | ⟨-, v, hv, hrm⟩
          · exact ⟨rm', hin, hq⟩
          · subst hrm
            exact ⟨v, hv, (mem_alRemove hq).1⟩
        · exact ⟨rm', hr, hq⟩
      · exact ⟨rm', hr, hq⟩
    · exact ⟨rm', hr, hq⟩
  · exact ⟨rm', hr, hq⟩

theorem joinLeaveOld_keys (s : ServerState) (cs : ConnState) (pid : String)
    (roomId : Nat) :
    (joinLeaveOld s cs pid roomId).1.rooms.map Prod.fst = s.rooms.map Prod.fst := by
  unfold joinLeaveOld
  split
  · split
    · split
      · split
        · simp [alUpdate_keys]
        · rfl
      · rfl
    · rfl
  · rfl

theorem joinLeaveOld_no_stale (s : ServerState) (cs : ConnState) (pid : String)
    (roomId cr : Nat) (hnd : (s.rooms.map Prod.fst).Nodup)
    (hcur : cs.currentRoom = some cr) (hne : cr ≠ roomId) :
    ∀ rm', (cr, rm') ∈ (joinLeaveOld s cs pid roomId).1.rooms →
      ∀ e, (pid, e) ∉ rm' := by
  intro rm' hr e hmem
  unfold joinLeaveOld at hr
  rw [hcur] at hr
  simp only [ne_eq, hne, not_false_eq_true, if_true] at hr
  split at hr
  · next rmold hget =>
    split at hr
    · simp only at hr
      rcases mem_alUpdate hr with ⟨-, habs⟩ | ⟨-, v, -, hrm⟩
      · exact habs rfl
      · subst hrm
        exact (mem_alRemove hmem).2 rfl
    · next hhas =>
      have : alGet s.rooms cr = some rm' := alGet_of_mem_nodup hnd hr
      have hrm : rm' = rmold := Option.some.inj (this.symm.trans hget)
      subst hrm
      exact hhas (alHas_of_mem hmem)
  · next hget =>
    exact alGet_none_not_mem hget rm' hr


/-- One participant ID never sits in two differently-keyed room entries. -/
def membershipConsistent (s : ServerState) : Prop :=
  ∀ p r r' rm rm', (r, rm) ∈ s.rooms → (r', rm') ∈ s.rooms →
    alHas rm p = true → alHas rm' p = true → r = r'

/-- The trace discipline the data model assumes: every `join` a connection
sends carries that connection's fixed participant ID. -/
def evJoinOk (connPid : Nat → String) : SEvent → Prop
  | SEvent.msg c (ClientMsg.join p _) _ => p = connPid c
  | _ => True

/-- Inductive invariant: (a) a connection's recorded ID is its fixed ID;
(b) every membership entry is backed by its owning connection, whose
recorded current room is that room; (c) the room dictionary keeps exactly
the keys 1-4. -/
def ServerInv (connPid : Nat → String) (s : ServerState) : Prop :=
  (∀ cid csx, alGet s.conns cid = some csx →
     ∀ p, csx.participantId = some p → p = connPid cid) ∧
  (∀ r rm, (r, rm) ∈ s.rooms → ∀ p e, (p, e) ∈ rm →
     ∃ cid csx, connPid cid = p ∧ alGet s.conns cid = some csx ∧
       csx.currentRoom = some r) ∧
  s.rooms.map Prod.fst = [1, 2, 3, 4]

theorem ServerInv_of_same (connPid : Nat → String) (s s' : ServerState)
    (hconns : s'.conns = s.conns) (hrooms : s'.rooms = s.rooms)
    (h : ServerInv connPid s) : ServerInv connPid s' := by
  obtain ⟨hA, hB, hD⟩ := h
  refine ⟨?_, ?_, ?_⟩
  · rw [hconns]
    exact hA
  · rw [hrooms, hconns]
    exact hB
  · rw [hrooms]
    exact hD

theorem inv_handleLeave (connPid : Nat → String) (s : ServerState) (c : Nat)
    (cs : ConnState) (hconn : alGet s.conns c = some cs)
    (hinv : ServerInv connPid s) : ServerInv connPid (handleLeave s c cs).1 := by
  obtain ⟨hA, hB, hD⟩ := hinv
  cases hcur : cs.currentRoom with
  | none =>
    refine ServerInv_of_same connPid s _ ?_ ?_ ⟨hA, hB, hD⟩ <;>
      simp [handleLeave, hcur]
  | some cr =>
    cases hroom : alGet s.rooms cr with
    | none =>
      refine ServerInv_of_same connPid s _ ?_ ?_ ⟨hA, hB, hD⟩ <;>
        simp [handleLeave, hcur, hroom]
    | some rmcr =>
      by_cases hpt : optStrTruthy cs.participantId = true
      · obtain ⟨pid, hpid, hpne⟩ := (optStrTruthy_iff _).mp hpt
        have hpc : pid = connPid c := hA c cs hconn pid hpid
        have hgd : cs.participantId.getD "" = pid := by rw [hpid]; rfl
        have hred : (handleLeave s c cs).1
            = { s with rooms := alUpdate s.rooms cr (fun r => alRemove r pid),
                       conns := alSet s.conns c { cs with currentRoom := none } } := by
          simp [handleLeave, hcur, hroom, hpt, hgd]
        rw [hred]
        refine ⟨?_, ?_, ?_⟩
        · intro cid csx hg p hp
          by_cases hc : cid = c
          · rw [hc, alGet_alSet_self] at hg
            have hx : { cs with currentRoom := none } = csx := Option.some.inj hg
            rw [← hx] at hp
            rw [hc]
            exact hA c cs hconn p hp
          · rw [alGet_alSet_ne _ _ _ _ hc] at hg
            exact hA cid csx hg p hp
        · intro r' rm' hr' q e hq
          rcases mem_alUpdate hr' with ⟨hin, hne⟩ | ⟨heq, v, hv, hrm⟩
          · obtain ⟨cid, csx, hcp, hcg, hcr⟩ := hB r' rm' hin q e hq
            by_cases hc : cid = c
            · rw [hc] at hcg
              have hx : csx = cs := Option.some.inj (hcg.symm.trans hconn)
              rw [hx, hcur] at hcr
              exact absurd (Option.some.inj hcr) (fun hh => hne hh.symm)
            · exact ⟨cid, csx, hcp, by
                rw [alGet_alSet_ne _ _ _ _ hc]
                exact hcg, hcr⟩
          · subst heq
            rw [hrm] at hq
            obtain ⟨hqv, hqne⟩ := mem_alRemove hq
            obtain ⟨cid, csx, hcp, hcg, hcr⟩ := hB r' v hv q e hqv
            by_cases hc : cid = c
            · rw [hc] at hcp
              exact absurd (hcp.symm.trans hpc.symm) hqne
            · exact ⟨cid, csx, hcp, by
                rw [alGet_alSet_ne _ _ _ _ hc]
                exact hcg, hcr⟩
        · simpa [alUpdate_keys] using hD
      · refine ServerInv_of_same connPid s _ ?_ ?_ ⟨hA, hB, hD⟩ <;>
          simp [handleLeave, hcur, hroom, hpt]


theorem inv_conns_update (connPid : Nat → String) (s : ServerState) (c : Nat)
    (cs csN : ConnState) (hconn : alGet s.conns c = some cs)
    (hpidA : ∀ p, csN.participantId = some p → p = connPid c)
    (hcr : csN.currentRoom = cs.currentRoom)
    (hinv : ServerInv connPid s) :
    ServerInv connPid { s with conns := alSet s.conns c csN } := by
  obtain ⟨hA, hB, hD⟩ := hinv
  refine ⟨?_, ?_, hD⟩
  · intro cid csx hg p hp
    by_cases hc : cid = c
    · rw [hc, alGet_alSet_self] at hg
      have hx : csN = csx := Option.some.inj hg
      rw [← hx] at hp
      rw [hc]
      exact hpidA p hp
    · rw [alGet_alSet_ne _ _ _ _ hc] at hg
      exact hA cid csx hg p hp
  · intro r rm hr p e hp
    obtain ⟨cid, csx, hcp, hcg, hcr2⟩ := hB r rm hr p e hp
    by_cases hc : cid = c
    · rw [hc] at hcg hcp
      have hx : csx = cs := Option.some.inj (hcg.symm.trans hconn)
      refine ⟨c, csN, hcp, alGet_alSet_self _ _ _, ?_⟩
      rw [hcr, ← hx]
      exact hcr2
    · exact ⟨cid, csx, hcp, by
        rw [alGet_alSet_ne _ _ _ _ hc]
        exact hcg, hcr2⟩

theorem inv_rooms_shrink (connPid : Nat → String) (s : ServerState) (cr : Nat)
    (pid : String) (hinv : ServerInv connPid s) :
    ServerInv connPid
      { s with rooms := alUpdate s.rooms cr (fun r => alRemove r pid) } := by
  obtain ⟨hA, hB, hD⟩ := hinv
  refine ⟨hA, ?_, by simpa [alUpdate_keys] using hD⟩
  intro r rm hr p e hp
  rcases mem_alUpdate hr with ⟨hin, -⟩ | ⟨-, v, hv, hrm⟩
  · exact hB r rm hin p e hp
  · rw [hrm] at hp
    exact hB r v hv p e (mem_alRemove hp).1

theorem inv_handleClose (connPid : Nat → String) (s : ServerState) (c : Nat)
    (cs : ConnState) (hconn : alGet s.conns c = some cs)
    (hinv : ServerInv connPid s) : ServerInv connPid (handleClose s c cs).1 := by
  obtain ⟨hA, hB, hD⟩ := hinv
  have hbase : ServerInv connPid { s with conns := alSet s.conns c { cs with live := false } } :=
    inv_conns_update connPid s c cs { cs with live := false } hconn
      (fun p hp => hA c cs hconn p hp) rfl ⟨hA, hB, hD⟩
  cases hcur : cs.currentRoom with
  | none =>
    refine ServerInv_of_same connPid _ _ ?_ ?_ hbase <;> simp [handleClose, hcur]
  | some cr =>
    cases hroom : alGet s.rooms cr with
    | none =>
      refine ServerInv_of_same connPid _ _ ?_ ?_ hbase <;> simp [handleClose, hcur, hroom]
    | some rmcr =>
      by_cases hpt : optStrTruthy cs.participantId = true
      · have hshrunk := inv_rooms_shrink connPid
          { s with conns := alSet s.conns c { cs with live := false } } cr
          (cs.participantId.getD "") hbase
        refine ServerInv_of_same connPid _ _ ?_ ?_ hshrunk <;>
          simp [handleClose, hcur, hroom, hpt]
      · refine ServerInv_of_same connPid _ _ ?_ ?_ hbase <;>
          simp [handleClose, hcur, hroom, hpt]


theorem inv_handleJoin (connPid : Nat → String) (s : ServerState) (c : Nat)
    (cs : ConnState) (pid : String) (roomId now : Nat)
    (hconn : alGet s.conns c = some cs) (hok : pid = connPid c)
    (hinv : ServerInv connPid s) :
    ServerInv connPid (handleJoin s c cs pid roomId now).1 := by
  obtain ⟨hA, hB, hD⟩ := hinv
  -- the state after the leave-old phase still satisfies the invariant
  obtain ⟨hconns1, hdh1, -⟩ := joinLeaveOld_state s cs pid roomId
  have hD1 : (joinLeaveOld s cs pid roomId).1.rooms.map Prod.fst = [1, 2, 3, 4] :=
    (joinLeaveOld_keys s cs pid roomId).trans hD
  have hB1 : ∀ r rm, (r, rm) ∈ (joinLeaveOld s cs pid roomId).1.rooms →
      ∀ p e, (p, e) ∈ rm → ∃ cid csx, connPid cid = p ∧
        alGet s.conns cid = some csx ∧ csx.currentRoom = some r := by
    intro r rm hr p e hp
    obtain ⟨rm0, hr0, hp0⟩ := joinLeaveOld_mem_rooms s cs pid roomId r rm p e hr hp
    exact hB r rm0 hr0 p e hp0
  have hnd : (s.rooms.map Prod.fst).Nodup := by
    rw [hD]
    decide
  -- no stale copy of `pid` survives in the old current room if it differed
  have hstale := fun cr (hcur : cs.currentRoom = some cr) (hne : cr ≠ roomId) =>
    joinLeaveOld_no_stale s cs pid roomId cr hnd hcur hne
  unfold handleJoin
  cases hjoin : alGet (joinLeaveOld s cs pid roomId).1.rooms roomId with
  | none =>
    simp only [hjoin]
    have := inv_conns_update connPid (joinLeaveOld s cs pid roomId).1 c cs
      { cs with participantId := some pid } (by rw [hconns1]; exact hconn)
      (fun p hp => by
        have : some pid = some p := hp
        rw [← Option.some.inj this]
        exact hok)
      rfl
      ⟨by rw [hconns1]; exact hA, by rw [hconns1]; exact hB1, hD1⟩
    refine ServerInv_of_same connPid _ _ ?_ ?_ this
    · simp [hconns1]
    · rfl
  | some rm2 =>
    simp only [hjoin]
    refine ⟨?_, ?_, ?_⟩
    · -- invariant A
      intro cid csx hg p hp
      by_cases hc : cid = c
      · rw [hc] at hg ⊢
        rw [alGet_alSet_self] at hg
        have hx := Option.some.inj hg
        rw [← hx] at hp
        have : some pid = some p := hp
        rw [← Option.some.inj this]
        exact hok
      · rw [alGet_alSet_ne _ _ _ _ hc, hconns1] at hg
        exact hA cid csx hg p hp
    · -- invariant B
      intro r rm hr p e hp
      rcases mem_alUpdate hr with ⟨hin, hne⟩ | ⟨heq, v, hv, hrm⟩
      · -- untouched room, r ≠ roomId
        obtain ⟨cid, csx, hcp, hcg, hcr2⟩ := hB1 r rm hin p e hp
        by_cases hc : cid = c
        · -- the entry would be a stale copy of `pid` in the old room: impossible
          exfalso
          rw [hc] at hcg hcp
          have hx : csx = cs := Option.some.inj (hcg.symm.trans hconn)
          rw [hx] at hcr2
          have hpidp : p = pid := by
            rw [← hcp, hok]
          rw [hpidp] at hp
          exact hstale r hcr2 hne rm hin e hp
        · refine ⟨cid, csx, hcp, ?_, hcr2⟩
          rw [alGet_alSet_ne _ _ _ _ hc, hconns1]
          exact hcg
      · -- the joined room: either the fresh entry or a pre-existing one
        rw [hrm] at hp
        rcases mem_alSet hp with ⟨hq, -⟩ | hold
        · rw [heq, hq]
          exact ⟨c, ⟨some pid, some roomId, cs.live⟩, hok.symm,
            alGet_alSet_self _ _ _, rfl⟩
        · obtain ⟨cid, csx, hcp, hcg, hcr2⟩ := hB1 r v hv p e hold
          by_cases hc : cid = c
          · rw [hc] at hcp
            rw [heq]
            exact ⟨c, ⟨some pid, some roomId, cs.live⟩, hcp,
              alGet_alSet_self _ _ _, rfl⟩
          · refine ⟨cid, csx, hcp, ?_, hcr2⟩
            rw [alGet_alSet_ne _ _ _ _ hc, hconns1]
            exact hcg
    · -- invariant D
      simpa [alUpdate_keys] using hD1


theorem initState_inv (connPid : Nat → String) : ServerInv connPid initState := by
  refine ⟨?_, ?_, rfl⟩
  · intro cid csx hg
    simp [initState, alGet] at hg
  · intro r rm hr p e hp
    simp only [initState, List.mem_cons, List.mem_singleton, Prod.mk.injEq] at hr
    rcases hr with ⟨-, h⟩ | ⟨-, h⟩ | ⟨-, h⟩ | ⟨-, h⟩ | h
    · rw [h] at hp
      simp at hp
    · rw [h] at hp
      simp at hp
    · rw [h] at hp
      simp at hp
    · rw [h] at hp
      simp at hp
    · simp at h

theorem inv_serverStep (connPid : Nat → String) (s : ServerState) (e : SEvent)
    (hinv : ServerInv connPid s) (hok : evJoinOk connPid e) :
    ServerInv connPid (serverStep s e).1 := by
  obtain ⟨hA, hB, hD⟩ := hinv
  cases e with
  | connect c =>
    by_cases hc : alHas s.conns c = true
    · refine ServerInv_of_same connPid s _ ?_ ?_ ⟨hA, hB, hD⟩ <;>
        simp [serverStep, hc]
    · have hred : (serverStep s (SEvent.connect c)).1
          = { s with conns := s.conns ++ [(c, ⟨none, none, true⟩)] } := by
        simp [serverStep, hc]
      rw [hred]
      refine ⟨?_, ?_, hD⟩
      · intro cid csx hg p hp
        rw [alGet_append_single] at hg
        cases hg0 : alGet s.conns cid with
        | some v =>
          rw [hg0] at hg
          exact hA cid csx (hg0.trans hg) p hp
        | none =>
          rw [hg0] at hg
          simp only at hg
          split at hg
          · have hx := Option.some.inj hg
            rw [← hx] at hp
            exact absurd hp (by simp)
          · exact Option.noConfusion hg
      · intro r rm hr p e hp
        obtain ⟨cid, csx, hcp, hcg, hcr⟩ := hB r rm hr p e hp
        exact ⟨cid, csx, hcp, alGet_append_of_some hcg, hcr⟩
  | msg c m now =>
    cases hg : alGet s.conns c with
    | none =>
      refine ServerInv_of_same connPid s _ ?_ ?_ ⟨hA, hB, hD⟩ <;>
        simp [serverStep, hg]
    | some cs =>
      by_cases hlv : cs.live = true
      · have hred : serverStep s (SEvent.msg c m now) = handleMsg s c cs m now := by
          simp [serverStep, hg, hlv]
        rw [hred]
        cases m with
        | join pid roomId =>
          exact inv_handleJoin connPid s c cs pid roomId now hg hok ⟨hA, hB, hD⟩
        | leave => exact inv_handleLeave connPid s c cs hg ⟨hA, hB, hD⟩
        | rtcOffer tid off => exact ⟨hA, hB, hD⟩
        | rtcAnswer tid ans => exact ⟨hA, hB, hD⟩
        | rtcIceCandidate tid cand => exact ⟨hA, hB, hD⟩
        | chat mid text =>
          refine ServerInv_of_same connPid s _ ?_ ?_ ⟨hA, hB, hD⟩ <;>
            (simp only [handleMsg]; split) <;> rfl
        | drawStroke sid cp ct pts col w tl =>
          refine ServerInv_of_same connPid s _ ?_ ?_ ⟨hA, hB, hD⟩ <;>
            (simp only [handleMsg, handleDraw]; split) <;> rfl
        | clearDrawing =>
          refine ServerInv_of_same connPid s _ ?_ ?_ ⟨hA, hB, hD⟩ <;>
            (simp only [handleMsg, handleClear]; split) <;> rfl
        | ping => exact ⟨hA, hB, hD⟩
        | unknown => exact ⟨hA, hB, hD⟩
      · refine ServerInv_of_same connPid s _ ?_ ?_ ⟨hA, hB, hD⟩ <;>
          simp [serverStep, hg, hlv]
  | close c =>
    cases hg : alGet s.conns c with
    | none =>
      refine ServerInv_of_same connPid s _ ?_ ?_ ⟨hA, hB, hD⟩ <;>
        simp [serverStep, hg]
    | some cs =>
      by_cases hlv : cs.live = true
      · have hred : serverStep s (SEvent.close c) = handleClose s c cs := by
          simp [serverStep, hg, hlv]
        rw [hred]
        exact inv_handleClose connPid s c cs hg ⟨hA, hB, hD⟩
      · refine ServerInv_of_same connPid s _ ?_ ?_ ⟨hA, hB, hD⟩ <;>
          simp [serverStep, hg, hlv]

theorem execServer_inv (connPid : Nat → String) (es : List SEvent) :
    ∀ s, ServerInv connPid s → (∀ e ∈ es, evJoinOk connPid e) →
      ServerInv connPid (execServer s es) := by
  induction es with
  | nil => intro s hinv _; exact hinv
  | cons e es ih =>
    intro s hinv hok
    have h1 := inv_serverStep connPid s e hinv (hok e (List.mem_cons_self _ _))
    exact ih _ h1 (fun e' he' => hok e' (List.mem_cons_of_mem _ he'))


theorem alHas_exists [DecidableEq κ] {m : List (κ × α)} {k : κ}
    (h : alHas m k = true) : ∃ v, (k, v) ∈ m := by
  cases hg : alGet m k with
  | none => simp [alHas, hg] at h
  | some v => exact ⟨v, alGet_mem hg⟩

/-- C1 (amended): over any event trace in which every `join` from a
connection carries that connection's fixed participant ID and no two
connections share an ID (the data model's "one socket per ID" assumption),
each participant ID appears in at most one room's membership map at every
reachable state.  Without that assumption the claim fails, see the
counterexample. -/
theorem C1_one_room_per_participant (connPid : Nat → String)
    (hinj : ∀ c c', connPid c = connPid c' → c = c') (es : List SEvent)
    (hok : ∀ e ∈ es, evJoinOk connPid e) :
    membershipConsistent (execServer initState es) := by
  have hinv := execServer_inv connPid es initState (initState_inv connPid) hok
  intro p r r' rm rm' hr hr' hh hh'
  obtain ⟨e, he⟩ := alHas_exists hh
  obtain ⟨e', he'⟩ := alHas_exists hh'
  obtain ⟨cid, csx, hcp, hcg, hcr⟩ := hinv.2.1 r rm hr p e he
  obtain ⟨cid', csx', hcp', hcg', hcr'⟩ := hinv.2.1 r' rm' hr' p e' he'
  have hcc : cid = cid' := hinj cid cid' (hcp.trans hcp'.symm)
  rw [hcc] at hcg
  have hx : csx = csx' := Option.some.inj (hcg.symm.trans hcg')
  rw [hx] at hcr
  exact Option.some.inj (hcr.symm.trans hcr')

/-- Two connections joining different rooms under the same participant ID. -/
def cexC1 : List SEvent :=
  [SEvent.connect 0, SEvent.connect 1,
   SEvent.msg 0 (ClientMsg.join "p" 1) 0,
   SEvent.msg 1 (ClientMsg.join "p" 2) 0]

/-- C1 counterexample: after `cexC1`, participant "p" sits in room 1 and in
room 2 simultaneously, so the claim quantified over all join/leave/close
sequences is false as stated. -/
theorem C1_counterexample : ¬ membershipConsistent (execServer initState cexC1) := by
  intro h
  have h12 := h "p" 1 2 [("p", ⟨0, 0⟩)] [("p", ⟨1, 0⟩)]
    (by decide) (by decide) (by decide) (by decide)
  exact absurd h12 (by decide)

/-- An injective assignment of participant IDs to connections, for the C1
witness. -/
def connPidW : Nat → String := fun c => { data := List.replicate (c + 1) 'a' }

/-- Witness for C1 at a concrete trace with one connection and its own ID. -/
theorem C1_witness :
    membershipConsistent (execServer initState
      [SEvent.connect 0, SEvent.msg 0 (ClientMsg.join (connPidW 0) 1) 3]) := by
  apply C1_one_room_per_participant connPidW
  · intro c c' h
    have hdata := congrArg String.data h
    simp only [connPidW] at hdata
    have hlen := congrArg List.length hdata
    simp only [List.length_replicate] at hlen
    omega
  · intro e he
    simp only [List.mem_cons, List.not_mem_nil, or_false] at he
    rcases he with he | he
    · rw [he]
      exact trivial
    · rw [he]
      exact rfl

end S2P
